import Mathlib

/-!
# Verification of the She-Remembered-Caterpillars solver

Shallow embedding of `src/main.py`: colored tokens ("mushrooms") sit in zones
of a board; typed connections (bridge / blocker / flippy / button) decide which
moves are legal; a breadth-first search looks for a state satisfying the
per-zone goal counts.

Zones are referenced by their index in the board's zone list.  A Python
`Counter` canonicalised by `serialized_counter` (all counts positive) is
modelled as a `Multiset` of its elements; the `frozendict` of flippy toggle
counters is modelled as a `Multiset` of directed zone pairs whose
multiplicity is the stored counter value (keys explicitly stored with value
zero in the Python dict carry no information, since the key set is fixed at
construction time).
-/

set_option maxHeartbeats 1000000

/-- `WHITE = 0`: the colorless mushroom. -/
def WHITE : Nat := 0

/-- `RED = 1`. -/
def RED : Nat := 1

/-- `YELLOW = 2`. -/
def YELLOW : Nat := 2

/-- `BLUE = 4`. -/
def BLUE : Nat := 4

/-- `ORANGE = RED | YELLOW`. -/
def ORANGE : Nat := RED ||| YELLOW

/-- `GREEN = BLUE | YELLOW`. -/
def GREEN : Nat := BLUE ||| YELLOW

/-- `PURPLE = RED | BLUE`. -/
def PURPLE : Nat := RED ||| BLUE

/-- `BLACK = RED | YELLOW | BLUE`. -/
def BLACK : Nat := RED ||| YELLOW ||| BLUE

/-- `PRIMARY_COLORS = {RED, YELLOW, BLUE}` (a Python set, used only for
membership and iteration). -/
def PRIMARY_COLORS : List Nat := [RED, YELLOW, BLUE]

/-- `SECONDARY_COLORS = {ORANGE, GREEN, PURPLE}`. -/
def SECONDARY_COLORS : List Nat := [ORANGE, GREEN, PURPLE]

/-- `ConnectionType.bridge = 1` (the Python `enum` value). -/
def bridgeType : Nat := 1

/-- `ConnectionType.blocker = 2`. -/
def blockerType : Nat := 2

/-- `ConnectionType.flippy = 3`. -/
def flippyType : Nat := 3

/-- `ConnectionType.button = 4`. -/
def buttonType : Nat := 4

/-- A `Zone`: unique id, colorizer colors, goal count and button weights
(`buttons = None` is modelled by the empty list; `convert_buttons` wraps a
single int into a one-element tuple). -/
structure Zone where
  uid : Nat
  colorizers : List Nat := []
  goals : Nat := 0
  buttons : List Int := []
deriving DecidableEq, Repr

/-- A connection object.  Python uses four distinct `attr` classes
(`Bridge`, `Blocker`, `Flippy`, `ButtonBridge`) that duck-type through the
shared fields `connection_type`, `zone1`, `zone2`; `kind` holds the
`ConnectionType` enum value and values outside `1..4` model a foreign
connection object of an unrecognized kind.  `color` (bridge/blocker) and
`button_set` (button) default to `0` for the kinds that lack them. -/
structure Connection where
  kind : Nat
  zone1 : Nat
  zone2 : Nat
  color : Nat := 0
  button_set : Nat := 0
deriving DecidableEq, Repr

/-- `DirectedConnection`: one traversal direction of a connection. -/
structure DirectedConnection where
  to_zone : Nat
  connection : Connection
deriving DecidableEq, Repr

/-- A board: zone list plus per-zone outgoing directed connections.  The
`Board` class converts the construction-time `defaultdict(list)` into a
`frozendict`, which drops the default factory: `board.connections[zone]`
raises `KeyError` for a zone that occurs in no connection.  The model uses
a total function; it matches the source at every zone that carries at
least one connection, and each concrete board below keeps the zones of its
tokens covered by a connection so that this lookup never strays onto the
uncovered case. -/
structure Board where
  zones : List Zone
  connections : Nat → List DirectedConnection

/-- The two directed edges a connection contributes to the adjacency list of
zone `z` (`conn_12` is appended to `zone1`'s list and `conn_21` to
`zone2`'s; a self-connection contributes both, in that order). -/
def connContrib (conn : Connection) (z : Nat) : List DirectedConnection :=
  (if conn.zone1 = z then [⟨conn.zone2, conn⟩] else []) ++
    (if conn.zone2 = z then [⟨conn.zone1, conn⟩] else [])

/-- `get_connections_by_zone`: compile the connection list into per-zone
adjacency plus the initial flippy toggle counters (each `Flippy(z1, z2)`
increments the `(z1, z2)` counter; the reverse key is set to `0`, which the
multiset model represents implicitly). -/
def get_connections_by_zone :
    List Connection → (Nat → List DirectedConnection) × Multiset (Nat × Nat)
  | [] => (fun _ => [], 0)
  | conn :: rest =>
    let r := get_connections_by_zone rest
    (fun z => connContrib conn z ++ r.1 z,
      if conn.kind = flippyType then (conn.zone1, conn.zone2) ::ₘ r.2 else r.2)

/-- A search state: the canonical mushroom counter (`serialized_counter`
strips non-positive entries, so it is exactly a finite multiset of
`(color, zone)` tokens) and the flippy toggle counters. -/
structure State where
  mushrooms : Multiset (Nat × Nat)
  bridges : Multiset (Nat × Nat)
deriving DecidableEq

/-- Order used to enumerate the distinct keys of a mushroom counter. -/
def keyLe (a b : Nat × Nat) : Prop :=
  a.1 < b.1 ∨ (a.1 = b.1 ∧ a.2 ≤ b.2)

instance : DecidableRel keyLe := fun a b => by
  unfold keyLe; infer_instance

instance : IsTrans (Nat × Nat) keyLe := by
  constructor
  intro a b c hab hbc
  rcases hab with h1 | ⟨h1, h2⟩ <;> rcases hbc with h3 | ⟨h3, h4⟩
  · exact Or.inl (h1.trans h3)
  · exact Or.inl (h3 ▸ h1)
  · exact Or.inl (h1 ▸ h3)
  · exact Or.inr ⟨h1.trans h3, h2.trans h4⟩

instance : IsAntisymm (Nat × Nat) keyLe := by
  constructor
  intro a b hab hba
  rcases hab with h1 | ⟨h1, h2⟩ <;> rcases hba with h3 | ⟨h3, h4⟩
  · exact absurd (h1.trans h3) (lt_irrefl _)
  · exact absurd h1 (h3 ▸ lt_irrefl _)
  · exact absurd h3 (h1 ▸ lt_irrefl _)
  · exact Prod.ext h1 (le_antisymm h2 h4)

instance : IsTotal (Nat × Nat) keyLe := by
  constructor
  intro a b
  rcases Nat.lt_trichotomy a.1 b.1 with h | h | h
  · exact Or.inl (Or.inl h)
  · rcases Nat.le_total a.2 b.2 with h2 | h2
    · exact Or.inl (Or.inr ⟨h, h2⟩)
    · exact Or.inr (Or.inr ⟨h.symm, h2⟩)
  · exact Or.inr (Or.inl h)

/-- The distinct keys of a mushroom counter, as a list (Python iterates the
`Counter`'s keys; the enumeration order is irrelevant to every property
proved below, so a canonical order is used). -/
def sortedKeys (m : Multiset (Nat × Nat)) : List (Nat × Nat) :=
  Quot.liftOn m (fun l => (List.insertionSort keyLe l).dedup) (fun l₁ l₂ h => by
    have hs : List.insertionSort keyLe l₁ = List.insertionSort keyLe l₂ :=
      List.eq_of_perm_of_sorted
        ((List.perm_insertionSort keyLe l₁).trans
          (h.trans (List.perm_insertionSort keyLe l₂).symm))
        (List.sorted_insertionSort keyLe l₁)
        (List.sorted_insertionSort keyLe l₂)
    simp [hs])

theorem mem_sortedKeys {m : Multiset (Nat × Nat)} {a : Nat × Nat} :
    a ∈ sortedKeys m ↔ a ∈ m := by
  induction m using Quot.inductionOn with
  | h l =>
    show a ∈ (List.insertionSort keyLe l).dedup ↔ a ∈ l
    rw [List.mem_dedup]
    exact (List.perm_insertionSort keyLe l).mem_iff

/-- The zone record at index `i` (out-of-range indices behave as a bare
zone, mirroring that such a zone never carries goals, colorizers or
buttons). -/
def zoneAt (board : Board) (i : Nat) : Zone :=
  board.zones.getD i ⟨0, [], 0, []⟩

/-- Total tokens in zone `z` (summed over all colors). -/
def zonePop (shrooms : Multiset (Nat × Nat)) (z : Nat) : Nat :=
  Multiset.countP (fun m => m.2 = z) shrooms

/-- Token population of zone `z` excluding the moving token's own
contribution to its source zone (`# can't hold button for yourself`). -/
def popExcl (shrooms : Multiset (Nat × Nat)) (color zone z : Nat) : Int :=
  (zonePop shrooms z : Int) -
    (if z = zone ∧ (color, zone) ∈ shrooms then 1 else 0)

/-- `zone_.buttons[index]` with the `zone_.buttons and zone_.buttons[index]`
guard folded in: missing or zero weights contribute `0`. -/
def buttonWeight (zone : Zone) (index : Nat) : Int :=
  zone.buttons.getD index 0

/-- The button-door test: `not +buttons` after subtracting populations, i.e.
every board zone's weighted button demand is covered by its population
(zones with no weight at `index` impose nothing; zones holding tokens only
ever drive their entry down). -/
def buttonConnected (board : Board) (shrooms : Multiset (Nat × Nat))
    (color zone index : Nat) : Bool :=
  decide (∀ i ∈ List.range board.zones.length,
    buttonWeight (zoneAt board i) index ≤ popExcl shrooms color zone i)

/-- `is_victory`: build the counter whose keys are the goal-bearing zones
plus every zone holding a token, each with value `goals - population`, and
accept iff no entry is positive (`+goals`) and none is negative
(`-goals`). -/
def is_victory (board : Board) (state : State) : Bool :=
  let keyZones :=
    (List.range board.zones.length).filter (fun i => (zoneAt board i).goals ≠ 0) ++
      (sortedKeys state.mushrooms).map Prod.snd
  keyZones.all (fun z => (zoneAt board z).goals == zonePop state.mushrooms z)

/-- The mushroom counter after splitting one `color` token in `zone` into
one token per occupied primary bit. -/
def splitResult (shrooms : Multiset (Nat × Nat)) (color zone : Nat) :
    Multiset (Nat × Nat) :=
  let s0 := shrooms.erase (color, zone)
  let s1 := if color &&& RED ≠ 0 then (RED, zone) ::ₘ s0 else s0
  let s2 := if color &&& YELLOW ≠ 0 then (YELLOW, zone) ::ₘ s1 else s1
  if color &&& BLUE ≠ 0 then (BLUE, zone) ::ₘ s2 else s2

/-- The split candidates for one `(color, zone)` token type. -/
def splitPart (state : State) (color zone : Nat) : List State :=
  if color ∈ SECONDARY_COLORS then
    [⟨splitResult state.mushrooms color zone, state.bridges⟩]
  else []

/-- The join candidates: one per other primary color present in the zone. -/
def joinPart (state : State) (color zone : Nat) : List State :=
  if color ∈ PRIMARY_COLORS then
    (PRIMARY_COLORS.filter (fun oc => oc ≠ color)).filterMap (fun oc =>
      if (oc, zone) ∈ state.mushrooms then
        some ⟨(color ||| oc, zone) ::ₘ
          (state.mushrooms.erase (oc, zone)).erase (color, zone), state.bridges⟩
      else none)
  else []

/-- The colorize candidates: one per registered colorizer color. -/
def colorizePart (board : Board) (state : State) (color zone : Nat) : List State :=
  if color = WHITE then
    (zoneAt board zone).colorizers.map (fun nc =>
      ⟨(nc, zone) ::ₘ state.mushrooms.erase (color, zone), state.bridges⟩)
  else []

/-- The decolorize candidate. -/
def decolorizePart (board : Board) (state : State) (color zone : Nat) : List State :=
  if color ∈ (zoneAt board zone).colorizers then
    [⟨(WHITE, zone) ::ₘ state.mushrooms.erase (color, zone), state.bridges⟩]
  else []

/-- The state resulting from moving one `color` token from `zone` to
`toZone`, with the given (possibly flipped) toggle counters. -/
def moveState (state : State) (color zone toZone : Nat)
    (bridges : Multiset (Nat × Nat)) : State :=
  ⟨(color, toZone) ::ₘ state.mushrooms.erase (color, zone), bridges⟩

/-- One movement attempt over a directed connection: `Except.error kind`
models the `raise NotImplementedError(connection_type)` on an unrecognized
kind, `Except.ok none` a blocked edge, `Except.ok (some next)` a legal
move. -/
def moveOne (board : Board) (state : State) (color zone : Nat)
    (d : DirectedConnection) : Except Nat (Option State) :=
  let conn := d.connection
  if conn.kind = bridgeType then
    Except.ok (if color &&& conn.color = conn.color then
      some (moveState state color zone d.to_zone state.bridges) else none)
  else if conn.kind = blockerType then
    Except.ok (if color &&& conn.color = 0 then
      some (moveState state color zone d.to_zone state.bridges) else none)
  else if conn.kind = flippyType then
    Except.ok (if color ∉ SECONDARY_COLORS ∧ state.bridges.count (zone, d.to_zone) ≠ 0 then
      some (moveState state color zone d.to_zone
        ((d.to_zone, zone) ::ₘ state.bridges.erase (zone, d.to_zone)))
    else none)
  else if conn.kind = buttonType then
    Except.ok (if buttonConnected board state.mushrooms color zone conn.button_set then
      some (moveState state color zone d.to_zone state.bridges) else none)
  else Except.error conn.kind

/-- All legal moves of one `(color, zone)` token type over the given
outgoing directed connections, in order. -/
def movesFor (board : Board) (state : State) (color zone : Nat) :
    List DirectedConnection → Except Nat (List State)
  | [] => Except.ok []
  | d :: rest => do
    let o ← moveOne board state color zone d
    let more ← movesFor board state color zone rest
    Except.ok (o.toList ++ more)

/-- All candidate successors contributed by one `(color, zone)` token type,
in source order: split, join, colorize, decolorize, moves. -/
def tokenSuccessors (board : Board) (state : State) (color zone : Nat) :
    Except Nat (List State) := do
  let moves ← movesFor board state color zone (board.connections zone)
  Except.ok (splitPart state color zone ++ joinPart state color zone ++
    colorizePart board state color zone ++ decolorizePart board state color zone ++
    moves)

/-- Fold `tokenSuccessors` over a list of token keys. -/
def forTokens (board : Board) (state : State) :
    List (Nat × Nat) → Except Nat (List State)
  | [] => Except.ok []
  | (c, z) :: rest => do
    let here ← tokenSuccessors board state c z
    let more ← forTokens board state rest
    Except.ok (here ++ more)

/-- `get_next_states`: the successor states of `state`, one batch per
distinct `(color, zone)` token type present. -/
def get_next_states (board : Board) (state : State) : Except Nat (List State) :=
  forTokens board state (sortedKeys state.mushrooms)

/-- The outcome of `solve`: a found path, an exhausted frontier
(`solve` falling off its loop and returning `None`), or exhausted fuel.
The Python loop has no fuel; a run of the Python `solve` that terminates is
modelled by any sufficiently large fuel value. -/
inductive SearchResult where
  | found (path : List State)
  | noSolution
  | outOfFuel
deriving DecidableEq

/-- Lookup in the predecessor map `paths` (a Python dict keyed by state). -/
def lookupPaths (paths : List (State × State)) (s : State) : Option State :=
  match paths with
  | [] => none
  | (c, p) :: rest => if c = s then some p else lookupPaths rest s

/-- `reconstruct_paths`: walk predecessor links from `state` back to the
predecessor-less start state, accumulating front-first (`appendleft`).  The
fuel argument makes the recursion structural; `solve` passes
`paths.length`, which the search invariants show is always sufficient. -/
def reconstruct_paths (paths : List (State × State)) (state : State) :
    Nat → List State
  | 0 => [state]
  | fuel + 1 =>
    match lookupPaths paths state with
    | none => [state]
    | some prev => reconstruct_paths paths prev fuel ++ [state]

/-- Push each not-yet-seen successor: enqueue it, mark it seen and record
its predecessor link. -/
def pushAll (parent : State) :
    List State → List State × List State × List (State × State) →
      List State × List State × List (State × State)
  | [], acc => acc
  | n :: rest, (queue, seen, paths) =>
    if n ∈ seen then pushAll parent rest (queue, seen, paths)
    else pushAll parent rest (queue ++ [n], n :: seen, (n, parent) :: paths)

/-- The breadth-first search loop: dequeue the frontier head, return the
reconstructed path on victory, otherwise expand and continue. -/
def solveAux (board : Board) :
    Nat → List State → List State → List (State × State) → Except Nat SearchResult
  | 0, _, _, _ => Except.ok SearchResult.outOfFuel
  | _ + 1, [], _, _ => Except.ok SearchResult.noSolution
  | fuel + 1, state :: queue, seen, paths =>
    if is_victory board state then
      Except.ok (SearchResult.found (reconstruct_paths paths state paths.length))
    else
      match get_next_states board state with
      | Except.error k => Except.error k
      | Except.ok nexts =>
        let t := pushAll state nexts (queue, seen, paths)
        solveAux board fuel t.1 t.2.1 t.2.2

/-- `solve`: breadth-first search from `start_state`, frontier and visited
set seeded with the start state. -/
def solve (board : Board) (start : State) (fuel : Nat) : Except Nat SearchResult :=
  solveAux board fuel [start] [start] []

/-- A board assembled from a zone list and connection list, as the tests
do. -/
def mkBoard (zones : List Zone) (conns : List Connection) : Board :=
  ⟨zones, (get_connections_by_zone conns).1⟩

/-- The initial state for a token placement on a board built from
`conns`. -/
def initState (conns : List Connection) (ms : Multiset (Nat × Nat)) : State :=
  ⟨ms, (get_connections_by_zone conns).2⟩

/-- `t` is a successor of `s`: successor generation succeeds on `s` and
yields `t`. -/
def Step (board : Board) (s t : State) : Prop :=
  ∃ l, get_next_states board s = Except.ok l ∧ t ∈ l

/-- `ReachN board s n t`: `t` is reachable from `s` in exactly `n`
transitions. -/
inductive ReachN (board : Board) : State → Nat → State → Prop where
  | refl (s : State) : ReachN board s 0 s
  | head {s t u : State} {n : Nat} :
      Step board s t → ReachN board t n u → ReachN board s (n + 1) u

/-- A solution path: nonempty, starts at `start`, consecutive states are
successor transitions, and the final state is victorious. -/
def SolutionPath (board : Board) (start : State) (p : List State) : Prop :=
  p.head? = some start ∧ List.Chain' (Step board) p ∧
    ∃ v, p.getLast? = some v ∧ is_victory board v = true

/-- The length of the predecessor chain recorded for `s` in `paths`. -/
inductive DistTo (paths : List (State × State)) : State → Nat → Prop where
  | root (s : State) : lookupPaths paths s = none → DistTo paths s 0
  | step {s p : State} {n : Nat} :
      lookupPaths paths s = some p → DistTo paths p n → DistTo paths s (n + 1)

/-! ## Structure of the successor list -/

theorem exbind_ok {ε α β : Type} (a : α) (f : α → Except ε β) :
    (Except.ok a : Except ε α) >>= f = f a := rfl

theorem exbind_error {ε α β : Type} (e : ε) (f : α → Except ε β) :
    (Except.error e : Except ε α) >>= f = Except.error e := rfl

theorem movesFor_ok_mem {board : Board} {state : State} {color zone : Nat}
    {ds : List DirectedConnection} {l : List State}
    (h : movesFor board state color zone ds = Except.ok l) {t : State} :
    t ∈ l ↔ ∃ d ∈ ds, moveOne board state color zone d = Except.ok (some t) := by
  induction ds generalizing l with
  | nil =>
    simp only [movesFor] at h
    cases h
    simp
  | cons d rest ih =>
    rcases hmo : moveOne board state color zone d with k | o
    · rw [movesFor, hmo, exbind_error] at h
      cases h
    · rcases hmf : movesFor board state color zone rest with k | more
      · rw [movesFor, hmo, exbind_ok, hmf, exbind_error] at h
        cases h
      · rw [movesFor, hmo, exbind_ok, hmf, exbind_ok] at h
        cases h
        rw [List.mem_append]
        constructor
        · rintro (ht | ht)
          · cases o with
            | none => simp at ht
            | some s' =>
              simp only [Option.toList_some, List.mem_singleton] at ht
              exact ⟨d, List.mem_cons_self _ _, ht ▸ hmo⟩
          · rcases (ih hmf).1 ht with ⟨d', hd', hm'⟩
            exact ⟨d', List.mem_cons_of_mem _ hd', hm'⟩
        · rintro ⟨d', hd', hm'⟩
          rcases List.mem_cons.1 hd' with rfl | hd'
          · rw [hmo] at hm'
            cases hm'
            simp
          · exact Or.inr ((ih hmf).2 ⟨d', hd', hm'⟩)

theorem movesFor_ok_all {board : Board} {state : State} {color zone : Nat}
    {ds : List DirectedConnection} {l : List State}
    (h : movesFor board state color zone ds = Except.ok l) {d : DirectedConnection}
    (hd : d ∈ ds) : ∃ o, moveOne board state color zone d = Except.ok o := by
  induction ds generalizing l with
  | nil => cases hd
  | cons d0 rest ih =>
    rcases hmo : moveOne board state color zone d0 with k | o
    · rw [movesFor, hmo, exbind_error] at h
      cases h
    · rcases hmf : movesFor board state color zone rest with k | more
      · rw [movesFor, hmo, exbind_ok, hmf, exbind_error] at h
        cases h
      · rcases List.mem_cons.1 hd with rfl | hd
        · exact ⟨o, hmo⟩
        · exact ih hmf hd

theorem tokenSuccessors_ok {board : Board} {state : State} {color zone : Nat}
    {l : List State} (h : tokenSuccessors board state color zone = Except.ok l) :
    ∃ moves, movesFor board state color zone (board.connections zone) = Except.ok moves ∧
      l = splitPart state color zone ++ joinPart state color zone ++
        colorizePart board state color zone ++ decolorizePart board state color zone ++
        moves := by
  rcases hmf : movesFor board state color zone (board.connections zone) with k | moves
  · rw [tokenSuccessors, hmf, exbind_error] at h
    cases h
  · rw [tokenSuccessors, hmf, exbind_ok] at h
    cases h
    exact ⟨moves, rfl, by simp [List.append_assoc]⟩

theorem forTokens_ok_mem {board : Board} {state : State} {keys : List (Nat × Nat)}
    {l : List State} (h : forTokens board state keys = Except.ok l) {t : State} :
    t ∈ l ↔ ∃ c z, (c, z) ∈ keys ∧
      ∃ here, tokenSuccessors board state c z = Except.ok here ∧ t ∈ here := by
  induction keys generalizing l with
  | nil =>
    simp only [forTokens] at h
    cases h
    simp
  | cons k0 rest ih =>
    rcases k0 with ⟨c0, z0⟩
    rcases hts : tokenSuccessors board state c0 z0 with k | here
    · rw [forTokens, hts, exbind_error] at h
      cases h
    · rcases hft : forTokens board state rest with k | more
      · rw [forTokens, hts, exbind_ok, hft, exbind_error] at h
        cases h
      · rw [forTokens, hts, exbind_ok, hft, exbind_ok] at h
        cases h
        rw [List.mem_append]
        constructor
        · rintro (ht | ht)
          · exact ⟨c0, z0, List.mem_cons_self _ _, here, hts, ht⟩
          · rcases (ih hft).1 ht with ⟨c, z, hk, here', hts', ht'⟩
            exact ⟨c, z, List.mem_cons_of_mem _ hk, here', hts', ht'⟩
        · rintro ⟨c, z, hk, here', hts', ht'⟩
          rcases List.mem_cons.1 hk with heq | hk
          · cases heq
            rw [hts] at hts'
            cases hts'
            exact Or.inl ht'
          · exact Or.inr ((ih hft).2 ⟨c, z, hk, here', hts', ht'⟩)

theorem forTokens_ok_token {board : Board} {state : State} {keys : List (Nat × Nat)}
    {l : List State} (h : forTokens board state keys = Except.ok l) {c z : Nat}
    (hk : (c, z) ∈ keys) :
    ∃ here, tokenSuccessors board state c z = Except.ok here ∧
      ∀ t ∈ here, t ∈ l := by
  induction keys generalizing l with
  | nil => cases hk
  | cons k0 rest ih =>
    rcases k0 with ⟨c0, z0⟩
    rcases hts : tokenSuccessors board state c0 z0 with k | here
    · rw [forTokens, hts, exbind_error] at h
      cases h
    · rcases hft : forTokens board state rest with k | more
      · rw [forTokens, hts, exbind_ok, hft, exbind_error] at h
        cases h
      · rw [forTokens, hts, exbind_ok, hft, exbind_ok] at h
        cases h
        rcases List.mem_cons.1 hk with heq | hk
        · cases heq
          exact ⟨here, hts, fun t ht => List.mem_append_left _ ht⟩
        · rcases ih hft hk with ⟨here', hts', hsub⟩
          exact ⟨here', hts', fun t ht => List.mem_append_right _ (hsub t ht)⟩

theorem mem_next_states_iff {board : Board} {state : State} {l : List State}
    (h : get_next_states board state = Except.ok l) {t : State} :
    t ∈ l ↔ ∃ c z, (c, z) ∈ state.mushrooms ∧
      (t ∈ splitPart state c z ∨ t ∈ joinPart state c z ∨
        t ∈ colorizePart board state c z ∨ t ∈ decolorizePart board state c z ∨
        ∃ d ∈ board.connections z, moveOne board state c z d = Except.ok (some t)) := by
  constructor
  · intro ht
    rcases (forTokens_ok_mem h).1 ht with ⟨c, z, hk, here, hts, ht'⟩
    rcases tokenSuccessors_ok hts with ⟨moves, hmf, rfl⟩
    refine ⟨c, z, mem_sortedKeys.1 hk, ?_⟩
    simp only [List.append_assoc, List.mem_append] at ht'
    rcases ht' with h1 | h1 | h1 | h1 | h1
    · exact Or.inl h1
    · exact Or.inr (Or.inl h1)
    · exact Or.inr (Or.inr (Or.inl h1))
    · exact Or.inr (Or.inr (Or.inr (Or.inl h1)))
    · exact Or.inr (Or.inr (Or.inr (Or.inr ((movesFor_ok_mem hmf).1 h1))))
  · rintro ⟨c, z, hk, hcase⟩
    rcases forTokens_ok_token h (mem_sortedKeys.2 hk) with ⟨here, hts, hsub⟩
    rcases tokenSuccessors_ok hts with ⟨moves, hmf, rfl⟩
    refine hsub t ?_
    simp only [List.append_assoc, List.mem_append]
    rcases hcase with h1 | h1 | h1 | h1 | h1
    · exact Or.inl h1
    · exact Or.inr (Or.inl h1)
    · exact Or.inr (Or.inr (Or.inl h1))
    · exact Or.inr (Or.inr (Or.inr (Or.inl h1)))
    · exact Or.inr (Or.inr (Or.inr (Or.inr ((movesFor_ok_mem hmf).2 h1))))

/-! ## Characterizing the individual transition rules -/

theorem splitPart_mem {state : State} {color zone : Nat} {t : State} :
    t ∈ splitPart state color zone ↔
      color ∈ SECONDARY_COLORS ∧
        t = ⟨splitResult state.mushrooms color zone, state.bridges⟩ := by
  unfold splitPart
  split_ifs with h <;> simp [h]

theorem joinPart_mem {state : State} {color zone : Nat} {t : State} :
    t ∈ joinPart state color zone ↔
      color ∈ PRIMARY_COLORS ∧ ∃ oc ∈ PRIMARY_COLORS, oc ≠ color ∧
        (oc, zone) ∈ state.mushrooms ∧
        t = ⟨(color ||| oc, zone) ::ₘ
          (state.mushrooms.erase (oc, zone)).erase (color, zone), state.bridges⟩ := by
  unfold joinPart
  split_ifs with h
  · simp only [List.mem_filterMap, h, true_and]
    constructor
    · rintro ⟨oc, hoc, hsome⟩
      rw [List.mem_filter, decide_eq_true_eq] at hoc
      split_ifs at hsome with hmem
      cases hsome
      exact ⟨oc, hoc.1, hoc.2, hmem, rfl⟩
    · rintro ⟨oc, hoc, hne, hmem, rfl⟩
      refine ⟨oc, List.mem_filter.2 ⟨hoc, by simp [hne]⟩, ?_⟩
      rw [if_pos hmem]
  · simp [h]

theorem colorizePart_mem {board : Board} {state : State} {color zone : Nat} {t : State} :
    t ∈ colorizePart board state color zone ↔
      color = WHITE ∧ ∃ nc ∈ (zoneAt board zone).colorizers,
        t = ⟨(nc, zone) ::ₘ state.mushrooms.erase (color, zone), state.bridges⟩ := by
  unfold colorizePart
  split_ifs with h <;> simp [h, eq_comm]

theorem decolorizePart_mem {board : Board} {state : State} {color zone : Nat} {t : State} :
    t ∈ decolorizePart board state color zone ↔
      color ∈ (zoneAt board zone).colorizers ∧
        t = ⟨(WHITE, zone) ::ₘ state.mushrooms.erase (color, zone), state.bridges⟩ := by
  unfold decolorizePart
  split_ifs with h <;> simp [h]

theorem moveOne_ok_some {board : Board} {state : State} {color zone : Nat}
    {d : DirectedConnection} {t : State}
    (h : moveOne board state color zone d = Except.ok (some t)) :
    (d.connection.kind = bridgeType ∧
        color &&& d.connection.color = d.connection.color ∧
        t = moveState state color zone d.to_zone state.bridges) ∨
      (d.connection.kind = blockerType ∧ color &&& d.connection.color = 0 ∧
        t = moveState state color zone d.to_zone state.bridges) ∨
      (d.connection.kind = flippyType ∧ color ∉ SECONDARY_COLORS ∧
        state.bridges.count (zone, d.to_zone) ≠ 0 ∧
        t = moveState state color zone d.to_zone
          ((d.to_zone, zone) ::ₘ state.bridges.erase (zone, d.to_zone))) ∨
      (d.connection.kind = buttonType ∧
        buttonConnected board state.mushrooms color zone d.connection.button_set = true ∧
        t = moveState state color zone d.to_zone state.bridges) := by
  simp only [moveOne] at h
  by_cases hk1 : d.connection.kind = bridgeType
  · rw [if_pos hk1] at h
    by_cases hc : color &&& d.connection.color = d.connection.color
    · rw [if_pos hc] at h
      injection h with h
      injection h with h
      exact Or.inl ⟨hk1, hc, h.symm⟩
    · rw [if_neg hc] at h
      injection h with h
      cases h
  · rw [if_neg hk1] at h
    by_cases hk2 : d.connection.kind = blockerType
    · rw [if_pos hk2] at h
      by_cases hc : color &&& d.connection.color = 0
      · rw [if_pos hc] at h
        injection h with h
        injection h with h
        exact Or.inr (Or.inl ⟨hk2, hc, h.symm⟩)
      · rw [if_neg hc] at h
        injection h with h
        cases h
    · rw [if_neg hk2] at h
      by_cases hk3 : d.connection.kind = flippyType
      · rw [if_pos hk3] at h
        by_cases hc : color ∉ SECONDARY_COLORS ∧ state.bridges.count (zone, d.to_zone) ≠ 0
        · rw [if_pos hc] at h
          injection h with h
          injection h with h
          exact Or.inr (Or.inr (Or.inl ⟨hk3, hc.1, hc.2, h.symm⟩))
        · rw [if_neg hc] at h
          injection h with h
          cases h
      · rw [if_neg hk3] at h
        by_cases hk4 : d.connection.kind = buttonType
        · rw [if_pos hk4] at h
          by_cases hc : buttonConnected board state.mushrooms color zone
              d.connection.button_set = true
          · rw [if_pos hc] at h
            injection h with h
            injection h with h
            exact Or.inr (Or.inr (Or.inr ⟨hk4, hc, h.symm⟩))
          · rw [if_neg hc] at h
            injection h with h
            cases h
        · rw [if_neg hk4] at h
          cases h

/-! ## Elemental color units -/

/-- The number of occupied primary bits of a color value. -/
def unitsOf (c : Nat) : Nat :=
  (if c &&& RED ≠ 0 then 1 else 0) + (if c &&& YELLOW ≠ 0 then 1 else 0) +
    (if c &&& BLUE ≠ 0 then 1 else 0)

/-- Total elemental color-unit count of a token collection. -/
def totalUnits (shrooms : Multiset (Nat × Nat)) : Nat :=
  (shrooms.map (fun m => unitsOf m.1)).sum

theorem totalUnits_cons (a : Nat × Nat) (s : Multiset (Nat × Nat)) :
    totalUnits (a ::ₘ s) = unitsOf a.1 + totalUnits s := by
  simp [totalUnits]

theorem totalUnits_erase {a : Nat × Nat} {s : Multiset (Nat × Nat)} (ha : a ∈ s) :
    totalUnits (s.erase a) + unitsOf a.1 = totalUnits s := by
  conv_rhs => rw [← Multiset.cons_erase ha]
  rw [totalUnits_cons, Nat.add_comm]

theorem unitsOf_RED : unitsOf RED = 1 := by decide

theorem unitsOf_YELLOW : unitsOf YELLOW = 1 := by decide

theorem unitsOf_BLUE : unitsOf BLUE = 1 := by decide

theorem totalUnits_splitResult_secondary {c z : Nat} {s : Multiset (Nat × Nat)}
    (h : c ∈ SECONDARY_COLORS) (hmem : (c, z) ∈ s) :
    totalUnits (splitResult s c z) = totalUnits s := by
  have he := totalUnits_erase hmem
  have hc : c = ORANGE ∨ c = GREEN ∨ c = PURPLE := by
    simpa [SECONDARY_COLORS] using h
  rcases hc with rfl | rfl | rfl
  · simp only [(by decide : unitsOf ORANGE = 2)] at he
    rw [splitResult]
    rw [if_neg (by decide : ¬ ORANGE &&& BLUE ≠ 0),
      if_pos (by decide : ORANGE &&& YELLOW ≠ 0),
      if_pos (by decide : ORANGE &&& RED ≠ 0)]
    rw [totalUnits_cons, totalUnits_cons]
    simp only [unitsOf_RED, unitsOf_YELLOW]
    omega
  · simp only [(by decide : unitsOf GREEN = 2)] at he
    rw [splitResult]
    rw [if_pos (by decide : GREEN &&& BLUE ≠ 0),
      if_pos (by decide : GREEN &&& YELLOW ≠ 0),
      if_neg (by decide : ¬ GREEN &&& RED ≠ 0)]
    rw [totalUnits_cons, totalUnits_cons]
    simp only [unitsOf_YELLOW, unitsOf_BLUE]
    omega
  · simp only [(by decide : unitsOf PURPLE = 2)] at he
    rw [splitResult]
    rw [if_pos (by decide : PURPLE &&& BLUE ≠ 0),
      if_neg (by decide : ¬ PURPLE &&& YELLOW ≠ 0),
      if_pos (by decide : PURPLE &&& RED ≠ 0)]
    rw [totalUnits_cons, totalUnits_cons]
    simp only [unitsOf_RED, unitsOf_BLUE]
    omega

theorem unitsOf_secondary {c : Nat} (h : c ∈ SECONDARY_COLORS) : unitsOf c = 2 := by
  fin_cases h <;> decide

theorem unitsOf_join {c oc : Nat} (hc : c ∈ PRIMARY_COLORS) (hoc : oc ∈ PRIMARY_COLORS)
    (hne : oc ≠ c) : unitsOf (c ||| oc) = unitsOf c + unitsOf oc := by
  fin_cases hc <;> fin_cases hoc <;> simp_all <;> decide

theorem unitsOf_white : unitsOf WHITE = 0 := by decide

theorem totalUnits_cons_pair (c z : Nat) (s : Multiset (Nat × Nat)) :
    totalUnits ((c, z) ::ₘ s) = unitsOf c + totalUnits s := by
  simp [totalUnits]

theorem totalUnits_erase_pair {c z : Nat} {s : Multiset (Nat × Nat)}
    (h : (c, z) ∈ s) :
    totalUnits (s.erase (c, z)) + unitsOf c = totalUnits s :=
  totalUnits_erase h

theorem totalUnits_join {c oc z : Nat} {s : Multiset (Nat × Nat)}
    (hc : c ∈ PRIMARY_COLORS) (hoc : oc ∈ PRIMARY_COLORS) (hne : oc ≠ c)
    (hcz : (c, z) ∈ s) (hocz : (oc, z) ∈ s) :
    totalUnits ((c ||| oc, z) ::ₘ (s.erase (oc, z)).erase (c, z)) = totalUnits s := by
  have hpair : (c, z) ≠ (oc, z) := by
    simp only [Ne, Prod.mk.injEq, not_and]
    intro h
    exact absurd h.symm hne
  have h1 := totalUnits_erase_pair hocz
  have hcz' : (c, z) ∈ s.erase (oc, z) := (Multiset.mem_erase_of_ne hpair).2 hcz
  have h2 := totalUnits_erase_pair hcz'
  rw [totalUnits_cons_pair, unitsOf_join hc hoc hne]
  omega

theorem totalUnits_move {c z t : Nat} {s : Multiset (Nat × Nat)} (hcz : (c, z) ∈ s) :
    totalUnits ((c, t) ::ₘ s.erase (c, z)) = totalUnits s := by
  have h1 := totalUnits_erase_pair hcz
  rw [totalUnits_cons_pair]
  omega

theorem totalUnits_colorize {nc z : Nat} {s : Multiset (Nat × Nat)}
    (hw : (WHITE, z) ∈ s) :
    totalUnits ((nc, z) ::ₘ s.erase (WHITE, z)) = totalUnits s + unitsOf nc := by
  have h1 := totalUnits_erase_pair hw
  rw [totalUnits_cons_pair]
  simp only [unitsOf_white] at h1
  omega

theorem totalUnits_decolorize {c z : Nat} {s : Multiset (Nat × Nat)}
    (hcz : (c, z) ∈ s) :
    totalUnits ((WHITE, z) ::ₘ s.erase (c, z)) + unitsOf c = totalUnits s := by
  have h1 := totalUnits_erase_pair hcz
  rw [totalUnits_cons_pair]
  simp only [unitsOf_white]
  omega

/-! ## Toggle counters along transitions -/

theorem next_states_bridges {board : Board} {state : State} {l : List State}
    (h : get_next_states board state = Except.ok l) {t : State} (ht : t ∈ l) :
    t.bridges = state.bridges ∨
      ∃ z w, state.bridges.count (z, w) ≠ 0 ∧
        t.bridges = (w, z) ::ₘ state.bridges.erase (z, w) := by
  rcases (mem_next_states_iff h).1 ht with ⟨c, z, _, hcase⟩
  rcases hcase with h1 | h1 | h1 | h1 | ⟨d, _, h1⟩
  · rw [(splitPart_mem.1 h1).2]
    exact Or.inl rfl
  · rcases joinPart_mem.1 h1 with ⟨_, oc, _, _, _, ht'⟩
    rw [ht']
    exact Or.inl rfl
  · rcases colorizePart_mem.1 h1 with ⟨_, nc, _, ht'⟩
    rw [ht']
    exact Or.inl rfl
  · rw [(decolorizePart_mem.1 h1).2]
    exact Or.inl rfl
  · rcases moveOne_ok_some h1 with ⟨_, _, ht'⟩ | ⟨_, _, ht'⟩ | ⟨_, _, hc, ht'⟩ | ⟨_, _, ht'⟩
    · rw [ht']; exact Or.inl rfl
    · rw [ht']; exact Or.inl rfl
    · rw [ht']
      exact Or.inr ⟨z, d.to_zone, hc, rfl⟩
    · rw [ht']; exact Or.inl rfl

theorem step_flippy_sum {X Y : Nat} (hXY : X ≠ Y) {board : Board} {s t : State}
    (hstep : Step board s t) :
    t.bridges.count (X, Y) + t.bridges.count (Y, X) =
      s.bridges.count (X, Y) + s.bridges.count (Y, X) := by
  obtain ⟨l, hok, htl⟩ := hstep
  rcases next_states_bridges hok htl with hb | ⟨z, w, hc, hb⟩
  · rw [hb]
  · rw [hb]
    have hne1 : (X, Y) ≠ (Y, X) := fun h => hXY (congrArg Prod.fst h)
    by_cases hzw1 : (z, w) = (X, Y)
    · have hz : z = X := congrArg Prod.fst hzw1
      have hw : w = Y := congrArg Prod.snd hzw1
      have hcount : s.bridges.count (X, Y) ≠ 0 := by rw [← hzw1]; exact hc
      subst hz
      subst hw
      rw [Multiset.count_cons_of_ne hne1, Multiset.count_cons_self]
      rw [Multiset.count_erase_self, Multiset.count_erase_of_ne hne1.symm]
      omega
    · by_cases hzw2 : (z, w) = (Y, X)
      · have hz : z = Y := congrArg Prod.fst hzw2
        have hw : w = X := congrArg Prod.snd hzw2
        have hcount : s.bridges.count (Y, X) ≠ 0 := by rw [← hzw2]; exact hc
        subst hz
        subst hw
        rw [Multiset.count_cons_self, Multiset.count_cons_of_ne hne1.symm]
        rw [Multiset.count_erase_of_ne hne1, Multiset.count_erase_self]
        omega
      · have hwz1 : (X, Y) ≠ (w, z) := by
          intro h
          apply hzw2
          have h1 : X = w := congrArg Prod.fst h
          have h2 : Y = z := congrArg Prod.snd h
          rw [← h1, ← h2]
        have hwz2 : (Y, X) ≠ (w, z) := by
          intro h
          apply hzw1
          have h1 : Y = w := congrArg Prod.fst h
          have h2 : X = z := congrArg Prod.snd h
          rw [← h1, ← h2]
        rw [Multiset.count_cons_of_ne hwz1, Multiset.count_cons_of_ne hwz2]
        rw [Multiset.count_erase_of_ne (fun h => hzw1 h.symm),
          Multiset.count_erase_of_ne (fun h => hzw2 h.symm)]

theorem reach_flippy_sum {board : Board} {s0 s : State}
    (hreach : Relation.ReflTransGen (Step board) s0 s) {X Y : Nat} (hXY : X ≠ Y) :
    s.bridges.count (X, Y) + s.bridges.count (Y, X) =
      s0.bridges.count (X, Y) + s0.bridges.count (Y, X) := by
  induction hreach with
  | refl => rfl
  | tail _ hstep ih => rw [step_flippy_sum hXY hstep, ih]

/-- The connection is a flippy between `X` and `Y` (either orientation). -/
def flippyBetween (X Y : Nat) (c : Connection) : Bool :=
  decide (c.kind = flippyType ∧
    ((c.zone1 = X ∧ c.zone2 = Y) ∨ (c.zone1 = Y ∧ c.zone2 = X)))

theorem bridges_init_count {X Y : Nat} (hXY : X ≠ Y) (conns : List Connection) :
    (get_connections_by_zone conns).2.count (X, Y) +
        (get_connections_by_zone conns).2.count (Y, X) =
      conns.countP (flippyBetween X Y) := by
  induction conns with
  | nil => rfl
  | cons c rest ih =>
    rw [List.countP_cons]
    have hsnd : (get_connections_by_zone (c :: rest)).2 =
        if c.kind = flippyType then
          (c.zone1, c.zone2) ::ₘ (get_connections_by_zone rest).2
        else (get_connections_by_zone rest).2 := rfl
    rw [hsnd]
    by_cases hk : c.kind = flippyType
    · rw [if_pos hk]
      by_cases h1 : (c.zone1, c.zone2) = (X, Y)
      · have hz1 : c.zone1 = X := congrArg Prod.fst h1
        have hz2 : c.zone2 = Y := congrArg Prod.snd h1
        have hne : ((Y, X) : Nat × Nat) ≠ (X, Y) :=
          fun h => hXY (congrArg Prod.snd h)
        rw [h1, Multiset.count_cons_self, Multiset.count_cons_of_ne hne]
        have hfb : flippyBetween X Y c = true := by
          simp [flippyBetween, hk, hz1, hz2]
        rw [hfb]
        simp
        omega
      · by_cases h2 : (c.zone1, c.zone2) = (Y, X)
        · have hz1 : c.zone1 = Y := congrArg Prod.fst h2
          have hz2 : c.zone2 = X := congrArg Prod.snd h2
          have hne : ((X, Y) : Nat × Nat) ≠ (Y, X) :=
            fun h => hXY (congrArg Prod.fst h)
          rw [h2, Multiset.count_cons_of_ne hne, Multiset.count_cons_self]
          have hfb : flippyBetween X Y c = true := by
            simp [flippyBetween, hk, hz1, hz2]
          rw [hfb]
          simp
          omega
        · have hne1 : ((X, Y) : Nat × Nat) ≠ (c.zone1, c.zone2) :=
            fun h => h1 h.symm
          have hne2 : ((Y, X) : Nat × Nat) ≠ (c.zone1, c.zone2) :=
            fun h => h2 h.symm
          rw [Multiset.count_cons_of_ne hne1, Multiset.count_cons_of_ne hne2]
          have hfb : flippyBetween X Y c = false := by
            simp only [flippyBetween, decide_eq_false_iff_not, not_and]
            intro _ hor
            rcases hor with ⟨ha, hb⟩ | ⟨ha, hb⟩
            · exact h1 (by rw [ha, hb])
            · exact h2 (by rw [ha, hb])
          rw [hfb]
          simp [ih]
    · rw [if_neg hk]
      have hfb : flippyBetween X Y c = false := by
        simp only [flippyBetween, decide_eq_false_iff_not, not_and]
        intro hkk
        exact absurd hkk hk
      rw [hfb]
      simp [ih]

/-! ## Per-kind movement rules -/

theorem moveOne_flippy {board : Board} {state : State} {color zone : Nat}
    {d : DirectedConnection} (hk : d.connection.kind = flippyType) :
    moveOne board state color zone d =
      Except.ok
        (if color ∉ SECONDARY_COLORS ∧ state.bridges.count (zone, d.to_zone) ≠ 0 then
          some (moveState state color zone d.to_zone
            ((d.to_zone, zone) ::ₘ state.bridges.erase (zone, d.to_zone)))
        else none) := by
  have hk1 : ¬d.connection.kind = bridgeType := by rw [hk]; decide
  have hk2 : ¬d.connection.kind = blockerType := by rw [hk]; decide
  simp only [moveOne, if_neg hk1, if_neg hk2, if_pos hk]

theorem moveOne_button {board : Board} {state : State} {color zone : Nat}
    {d : DirectedConnection} (hk : d.connection.kind = buttonType) :
    moveOne board state color zone d =
      Except.ok
        (if buttonConnected board state.mushrooms color zone d.connection.button_set then
          some (moveState state color zone d.to_zone state.bridges)
        else none) := by
  have hk1 : ¬d.connection.kind = bridgeType := by rw [hk]; decide
  have hk2 : ¬d.connection.kind = blockerType := by rw [hk]; decide
  have hk3 : ¬d.connection.kind = flippyType := by rw [hk]; decide
  simp only [moveOne, if_neg hk1, if_neg hk2, if_neg hk3, if_pos hk]

theorem moveOne_unknown {board : Board} {state : State} {color zone : Nat}
    {d : DirectedConnection} (hk1 : d.connection.kind ≠ bridgeType)
    (hk2 : d.connection.kind ≠ blockerType) (hk3 : d.connection.kind ≠ flippyType)
    (hk4 : d.connection.kind ≠ buttonType) :
    moveOne board state color zone d = Except.error d.connection.kind := by
  simp only [moveOne, if_neg hk1, if_neg hk2, if_neg hk3, if_neg hk4]

/-! ## The button rule -/

theorem buttonConnected_iff {board : Board} {shrooms : Multiset (Nat × Nat)}
    {color zone index : Nat} :
    buttonConnected board shrooms color zone index = true ↔
      ∀ i < board.zones.length,
        buttonWeight (zoneAt board i) index ≤ popExcl shrooms color zone i := by
  rw [buttonConnected, decide_eq_true_eq]
  constructor
  · intro h i hi
    exact h i (List.mem_range.2 hi)
  · intro h i hi
    exact h i (List.mem_range.1 hi)

theorem popExcl_le_cons (shrooms : Multiset (Nat × Nat)) (x : Nat × Nat)
    (color zone z : Nat) :
    popExcl shrooms color zone z ≤ popExcl (x ::ₘ shrooms) color zone z := by
  unfold popExcl zonePop
  rw [Multiset.countP_cons]
  split_ifs with h1 h2 h3 h4 h5 h6 h7 <;> try omega
  exfalso
  rcases Multiset.mem_cons.1 h7.2 with hx | hx
  · exact h5 ((congrArg Prod.snd hx).symm.trans h7.1.symm)
  · exact h1 ⟨h7.1, hx⟩

theorem buttonConnected_mono {board : Board} {shrooms : Multiset (Nat × Nat)}
    {color zone index : Nat} (x : Nat × Nat)
    (h : buttonConnected board shrooms color zone index = true) :
    buttonConnected board (x ::ₘ shrooms) color zone index = true := by
  rw [buttonConnected_iff] at h ⊢
  intro i hi
  exact le_trans (h i hi) (popExcl_le_cons shrooms x color zone i)

/-! ## The victory check -/

theorem is_victory_iff {board : Board} {state : State} :
    is_victory board state = true ↔
      ((∀ i < board.zones.length, (zoneAt board i).goals = zonePop state.mushrooms i) ∧
        ∀ m ∈ state.mushrooms, m.2 < board.zones.length) := by
  rw [is_victory, List.all_eq_true]
  constructor
  · intro h
    constructor
    · intro i hi
      by_cases hg : (zoneAt board i).goals ≠ 0
      · have hmem : i ∈ (List.range board.zones.length).filter
            (fun j => (zoneAt board j).goals ≠ 0) :=
          List.mem_filter.2 ⟨List.mem_range.2 hi, by simp [hg]⟩
        have := h i (List.mem_append_left _ hmem)
        exact beq_iff_eq.1 this
      · push_neg at hg
        by_cases hp : zonePop state.mushrooms i = 0
        · rw [hg, hp]
        · have hpos : 0 < Multiset.countP (fun m => m.2 = i) state.mushrooms := by
            rw [zonePop] at hp
            omega
          rcases Multiset.countP_pos.1 hpos with ⟨m, hm, hmz⟩
          have hmem : i ∈ (sortedKeys state.mushrooms).map Prod.snd := by
            rw [List.mem_map]
            exact ⟨m, mem_sortedKeys.2 hm, hmz⟩
          have := h i (List.mem_append_right _ hmem)
          exact beq_iff_eq.1 this
    · intro m hm
      have hmem : m.2 ∈ (sortedKeys state.mushrooms).map Prod.snd := by
        rw [List.mem_map]
        exact ⟨m, mem_sortedKeys.2 hm, rfl⟩
      have heq := beq_iff_eq.1 (h m.2 (List.mem_append_right _ hmem))
      by_contra hge
      push_neg at hge
      have hz : zoneAt board m.2 = ⟨0, [], 0, []⟩ := by
        rw [zoneAt, List.getD_eq_default]
        exact hge
      rw [hz] at heq
      have hpos : 0 < Multiset.countP (fun m' => m'.2 = m.2) state.mushrooms :=
        Multiset.countP_pos.2 ⟨m, hm, rfl⟩
      rw [zonePop] at heq
      simp at heq
      omega
  · rintro ⟨h1, h2⟩ z hz
    rcases List.mem_append.1 hz with hmem | hmem
    · rcases List.mem_filter.1 hmem with ⟨hr, _⟩
      exact beq_iff_eq.2 (h1 z (List.mem_range.1 hr))
    · rcases List.mem_map.1 hmem with ⟨m, hm, rfl⟩
      have hm' := mem_sortedKeys.1 hm
      exact beq_iff_eq.2 (h1 m.2 (h2 m hm'))

/-! ## The predecessor map -/

theorem lookupPaths_mem {paths : List (State × State)} {s p : State}
    (h : lookupPaths paths s = some p) : (s, p) ∈ paths := by
  induction paths with
  | nil => cases h
  | cons e rest ih =>
    rcases e with ⟨c, q⟩
    rw [lookupPaths] at h
    split_ifs at h with hc
    · cases h
      rw [hc]
      exact List.mem_cons_self _ _
    · exact List.mem_cons_of_mem _ (ih h)

theorem lookupPaths_cons_ne {paths : List (State × State)} {c p s : State}
    (h : c ≠ s) : lookupPaths ((c, p) :: paths) s = lookupPaths paths s := by
  rw [lookupPaths, if_neg h]

theorem distTo_unique {paths : List (State × State)} {s : State} {a b : Nat}
    (ha : DistTo paths s a) (hb : DistTo paths s b) : a = b := by
  induction ha generalizing b with
  | root s h =>
    cases hb with
    | root => rfl
    | step hl => rw [h] at hl; cases hl
  | step hl hp ih =>
    cases hb with
    | root _ h => rw [h] at hl; cases hl
    | step hl' hp' =>
      rw [hl] at hl'
      injection hl' with hl'
      rw [← hl'] at hp'
      rw [ih hp']

theorem distTo_extend {paths paths' : List (State × State)} {seen : List State}
    (hpre : ∀ x ∈ seen, lookupPaths paths' x = lookupPaths paths x)
    (hclosed : ∀ x p, lookupPaths paths x = some p → p ∈ seen) :
    ∀ (n : Nat) (s : State), DistTo paths s n → s ∈ seen → DistTo paths' s n := by
  intro n
  induction n with
  | zero =>
    intro s h hs
    cases h with
    | root _ hl => exact DistTo.root s ((hpre s hs).trans hl)
  | succ n ih =>
    intro s h hs
    cases h with
    | step hl hp =>
      exact DistTo.step ((hpre s hs).trans hl) (ih _ hp (hclosed _ _ hl))

theorem reconstruct_spec {paths : List (State × State)} :
    ∀ (n : Nat) (s : State) (fuel : Nat), DistTo paths s n → n ≤ fuel →
      (reconstruct_paths paths s fuel).length = n + 1 ∧
      (reconstruct_paths paths s fuel).getLast? = some s ∧
      (∃ r, (reconstruct_paths paths s fuel).head? = some r ∧
        lookupPaths paths r = none) ∧
      List.Chain' (fun a b => lookupPaths paths b = some a)
        (reconstruct_paths paths s fuel) ∧
      (∀ x ∈ reconstruct_paths paths s fuel,
        x = s ∨ ∃ y, lookupPaths paths y = some x) := by
  intro n
  induction n with
  | zero =>
    intro s fuel h _
    have hl : lookupPaths paths s = none := by cases h with | root _ hl => exact hl
    have hr : reconstruct_paths paths s fuel = [s] := by
      cases fuel with
      | zero => rfl
      | succ f => rw [reconstruct_paths, hl]
    rw [hr]
    refine ⟨rfl, rfl, ⟨s, rfl, hl⟩, List.chain'_singleton s, ?_⟩
    intro x hx
    rcases List.mem_singleton.1 hx with rfl
    exact Or.inl rfl
  | succ m ih =>
    intro s fuel h hfuel
    rcases h with _ | ⟨hl, hp⟩
    rcases fuel with _ | f
    · omega
    have hf : m ≤ f := Nat.succ_le_succ_iff.1 hfuel
    rename_i p
    obtain ⟨hlen, hlast, ⟨r, hhead, hroot⟩, hchain, helems⟩ := ih p f hp hf
    have hr : reconstruct_paths paths s (f + 1) = reconstruct_paths paths p f ++ [s] := by
      rw [reconstruct_paths, hl]
    rw [hr]
    refine ⟨?_, ?_, ?_, ?_, ?_⟩
    · rw [List.length_append, hlen]
      rfl
    · rw [List.getLast?_concat]
    · refine ⟨r, ?_, hroot⟩
      simp [List.head?_append, hhead]
    · rw [List.chain'_append]
      refine ⟨hchain, List.chain'_singleton s, ?_⟩
      intro a ha b hb
      rw [hlast] at ha
      injection ha with ha
      rcases hb' : ([s] : List State).head? with _ | b'
      · cases hb'
      · rw [hb'] at hb
        injection hb with hb
        injection hb' with hb'
        rw [← hb, ← hb', ← ha]
        exact hl
    · intro x hx
      rcases List.mem_append.1 hx with hx | hx
      · rcases helems x hx with rfl | hy
        · exact Or.inr ⟨s, hl⟩
        · exact Or.inr hy
      · rcases List.mem_singleton.1 hx with rfl
        exact Or.inl rfl

theorem reconstruct_nonempty (paths : List (State × State)) (s : State) (fuel : Nat) :
    reconstruct_paths paths s fuel ≠ [] := by
  cases fuel with
  | zero => simp [reconstruct_paths]
  | succ f =>
    rw [reconstruct_paths]
    rcases lookupPaths paths s with _ | p
    · simp
    · simp

/-! ## Expanding one state -/

theorem pushAll_spec (parent : State) :
    ∀ (nexts queue seen : List State) (paths : List (State × State)),
      ∃ ps : List State,
        (pushAll parent nexts (queue, seen, paths)).1 = queue ++ ps ∧
        (∀ x, x ∈ (pushAll parent nexts (queue, seen, paths)).2.1 ↔
          x ∈ seen ∨ x ∈ ps) ∧
        (∀ x ∈ ps, x ∉ seen ∧ x ∈ nexts) ∧
        (∀ x ∈ nexts, x ∈ (pushAll parent nexts (queue, seen, paths)).2.1) ∧
        (∀ x, x ∉ ps →
          lookupPaths (pushAll parent nexts (queue, seen, paths)).2.2 x =
            lookupPaths paths x) ∧
        (∀ x ∈ ps,
          lookupPaths (pushAll parent nexts (queue, seen, paths)).2.2 x =
            some parent) ∧
        (∀ e ∈ (pushAll parent nexts (queue, seen, paths)).2.2,
          e ∈ paths ∨ (e.2 = parent ∧ e.1 ∈ ps)) ∧
        (pushAll parent nexts (queue, seen, paths)).2.2.length =
          paths.length + ps.length := by
  intro nexts
  induction nexts with
  | nil =>
    intro queue seen paths
    refine ⟨[], by simp [pushAll], ?_, ?_, ?_, ?_, ?_, ?_, by simp [pushAll]⟩
    · intro x
      simp [pushAll]
    · intro x hx
      cases hx
    · intro x hx
      cases hx
    · intro x _
      rfl
    · intro x hx
      cases hx
    · intro e he
      exact Or.inl he
  | cons n rest ih =>
    intro queue seen paths
    by_cases hn : n ∈ seen
    · have hpush : pushAll parent (n :: rest) (queue, seen, paths) =
          pushAll parent rest (queue, seen, paths) := by
        rw [pushAll, if_pos hn]
      rw [hpush]
      obtain ⟨ps, h1, h2, h3, h4, h5, h6, h7, h8⟩ := ih queue seen paths
      refine ⟨ps, h1, h2, ?_, ?_, h5, h6, h7, h8⟩
      · intro x hx
        exact ⟨(h3 x hx).1, List.mem_cons_of_mem _ (h3 x hx).2⟩
      · intro x hx
        rcases List.mem_cons.1 hx with rfl | hx
        · exact (h2 x).2 (Or.inl hn)
        · exact h4 x hx
    · have hpush : pushAll parent (n :: rest) (queue, seen, paths) =
          pushAll parent rest (queue ++ [n], n :: seen, (n, parent) :: paths) := by
        rw [pushAll, if_neg hn]
      rw [hpush]
      obtain ⟨ps, h1, h2, h3, h4, h5, h6, h7, h8⟩ :=
        ih (queue ++ [n]) (n :: seen) ((n, parent) :: paths)
      have hnps : n ∉ ps := fun hmem => (h3 n hmem).1 (List.mem_cons_self _ _)
      refine ⟨n :: ps, ?_, ?_, ?_, ?_, ?_, ?_, ?_, ?_⟩
      · rw [h1, List.append_assoc]
        rfl
      · intro x
        rw [h2 x, List.mem_cons, List.mem_cons]
        tauto
      · intro x hx
        rcases List.mem_cons.1 hx with rfl | hx
        · exact ⟨hn, List.mem_cons_self _ _⟩
        · obtain ⟨hns, hr⟩ := h3 x hx
          exact ⟨fun hs => hns (List.mem_cons_of_mem _ hs),
            List.mem_cons_of_mem _ hr⟩
      · intro x hx
        rcases List.mem_cons.1 hx with rfl | hx
        · exact (h2 x).2 (Or.inl (List.mem_cons_self _ _))
        · exact h4 x hx
      · intro x hx
        have hxps : x ∉ ps := fun hmem => hx (List.mem_cons_of_mem _ hmem)
        have hxn : x ≠ n := fun heq => hx (heq ▸ List.mem_cons_self _ _)
        rw [h5 x hxps, lookupPaths_cons_ne (fun heq => hxn heq.symm)]
      · intro x hx
        rcases List.mem_cons.1 hx with rfl | hx
        · rw [h5 x hnps, lookupPaths, if_pos rfl]
        · exact h6 x hx
      · intro e he
        rcases h7 e he with he' | ⟨hp, hps⟩
        · rcases List.mem_cons.1 he' with rfl | he''
          · exact Or.inr ⟨rfl, List.mem_cons_self _ _⟩
          · exact Or.inl he''
        · exact Or.inr ⟨hp, List.mem_cons_of_mem _ hps⟩
      · rw [h8]
        simp only [List.length_cons]
        omega

/-! ## Reachability and solution paths -/

theorem reachN_zero {board : Board} {s t : State} (h : ReachN board s 0 t) : t = s := by
  cases h
  rfl

theorem reachN_succ {board : Board} {s t : State} {k : Nat}
    (h : ReachN board s (k + 1) t) : ∃ w, Step board s w ∧ ReachN board w k t := by
  cases h with
  | head hsw hwt => exact ⟨_, hsw, hwt⟩

theorem chain_reach {board : Board} :
    ∀ (p : List State) (h t : State), p.head? = some h →
      List.Chain' (Step board) p → p.getLast? = some t →
      ReachN board h (p.length - 1) t := by
  intro p
  induction p with
  | nil => intro h t hh; cases hh
  | cons x rest ih =>
    intro h t hh hc hl
    injection hh with hh
    subst hh
    cases rest with
    | nil =>
      injection hl with hl
      subst hl
      exact ReachN.refl x
    | cons y rest' =>
      have hstep : Step board x y := (List.chain'_cons.1 hc).1
      have hc' : List.Chain' (Step board) (y :: rest') := (List.chain'_cons.1 hc).2
      have hl' : (y :: rest').getLast? = some t := by
        rw [List.getLast?_cons_cons] at hl
        exact hl
      have := ih y t rfl hc' hl'
      have hlen : (x :: y :: rest').length - 1 = ((y :: rest').length - 1) + 1 := by
        simp
      rw [hlen]
      exact ReachN.head hstep this

/-! ## The search loop invariant -/

/-- The invariant maintained by `solveAux` over its frontier `queue`,
visited set `seen` and predecessor map `paths`. -/
structure SearchInv (board : Board) (start : State) (queue seen : List State)
    (paths : List (State × State)) : Prop where
  start_seen : start ∈ seen
  start_root : lookupPaths paths start = none
  queue_sub : ∀ s ∈ queue, s ∈ seen
  entries : ∀ e ∈ paths, Step board e.2 e.1 ∧ e.1 ∈ seen ∧ e.2 ∈ seen
  roots : ∀ s ∈ seen, lookupPaths paths s = none → s = start
  dist_ex : ∀ s ∈ seen, ∃ n, n ≤ paths.length ∧ DistTo paths s n
  nvict : ∀ s ∈ seen, s ∉ queue → is_victory board s = false
  mono : List.Pairwise
    (fun a b => ∀ na nb, DistTo paths a na → DistTo paths b nb → na ≤ nb) queue
  seen_bound : ∀ s ∈ seen, ∀ f, queue.head? = some f →
    ∀ ns nf, DistTo paths s ns → DistTo paths f nf → ns ≤ nf + 1
  cov : ∀ s t m n, s ∈ seen → (∀ ns, DistTo paths s ns → ns ≤ n) →
    ReachN board s m t →
    (t ∈ seen ∧ ∀ nt, DistTo paths t nt → nt ≤ n + m) ∨
    (∃ u ∈ queue, ∃ j, j ≤ m ∧ (∀ nu, DistTo paths u nu → nu ≤ n + j) ∧
      ReachN board u (m - j) t)

theorem inv_init (board : Board) (start : State) :
    SearchInv board start [start] [start] [] := by
  have hd0 : DistTo ([] : List (State × State)) start 0 := DistTo.root start rfl
  refine ⟨List.mem_singleton_self start, rfl, fun s hs => hs, ?_, ?_, ?_, ?_, ?_, ?_, ?_⟩
  · intro e he
    cases he
  · intro s _ _
    exact List.mem_singleton.1 ‹s ∈ [start]›
  · intro s hs
    rcases List.mem_singleton.1 hs with rfl
    exact ⟨0, Nat.le_refl 0, hd0⟩
  · intro s hs hns
    exact absurd hs hns
  · exact List.pairwise_singleton _ _
  · intro s hs f hf ns nf hdns hdnf
    rcases List.mem_singleton.1 hs with rfl
    injection hf with hf
    rw [← hf] at hdnf
    have h1 := distTo_unique hdns hd0
    omega
  · intro s t m n hs hb hr
    rcases List.mem_singleton.1 hs with rfl
    cases m with
    | zero =>
      rcases reachN_zero hr with rfl
      exact Or.inl ⟨List.mem_singleton_self _, fun nt hnt => by
        have := distTo_unique hnt hd0
        omega⟩
    | succ m' =>
      refine Or.inr ⟨s, List.mem_singleton_self _, 0, Nat.zero_le _,
        fun nu hnu => by
          have := distTo_unique hnu hd0
          omega, ?_⟩
      rw [Nat.sub_zero]
      exact hr

theorem inv_preserve {board : Board} {start v : State} {queue seen : List State}
    {paths : List (State × State)} {nexts : List State}
    {Q S : List State} {P : List (State × State)}
    (hinv : SearchInv board start (v :: queue) seen paths)
    (hnv : is_victory board v = false)
    (hok : get_next_states board v = Except.ok nexts)
    (hpush : pushAll v nexts (queue, seen, paths) = (Q, S, P)) :
    SearchInv board start Q S P := by
  obtain ⟨ps, h1, h2, h3, h4, h5, h6, h7, h8⟩ := pushAll_spec v nexts queue seen paths
  rw [hpush] at h1 h2 h4 h5 h6 h7 h8
  dsimp only at h1 h2 h4 h5 h6 h7 h8
  have hvseen : v ∈ seen := hinv.queue_sub v (List.mem_cons_self _ _)
  have hclosed : ∀ x p, lookupPaths paths x = some p → p ∈ seen :=
    fun x p h => (hinv.entries _ (lookupPaths_mem h)).2.2
  have hpre : ∀ x ∈ seen, lookupPaths P x = lookupPaths paths x :=
    fun x hx => h5 x (fun hmem => (h3 x hmem).1 hx)
  have htrans : ∀ (n : Nat) (s : State), DistTo paths s n → s ∈ seen → DistTo P s n :=
    distTo_extend hpre hclosed
  have hback : ∀ s ∈ seen, ∀ n, DistTo P s n → DistTo paths s n := by
    intro s hs n hn
    obtain ⟨ns, _, hns⟩ := hinv.dist_ex s hs
    have heq := distTo_unique hn (htrans ns s hns hs)
    rw [heq]
    exact hns
  obtain ⟨nv, hnvle, hnvd⟩ := hinv.dist_ex v hvseen
  have hnvd' : DistTo P v nv := htrans nv v hnvd hvseen
  have hpsd : ∀ x ∈ ps, DistTo P x (nv + 1) := fun x hx => DistTo.step (h6 x hx) hnvd'
  have hvmin : ∀ f ∈ queue, ∀ nf, DistTo paths f nf → nv ≤ nf := by
    intro f hf nf hnf
    exact (List.pairwise_cons.1 hinv.mono).1 f hf nv nf hnvd hnf
  have hsb : ∀ s ∈ seen, ∀ ns, DistTo paths s ns → ns ≤ nv + 1 := by
    intro s hs ns hns
    exact hinv.seen_bound s hs v rfl ns nv hns hnvd
  refine ⟨?_, ?_, ?_, ?_, ?_, ?_, ?_, ?_, ?_, ?_⟩
  · exact (h2 start).2 (Or.inl hinv.start_seen)
  · exact (hpre start hinv.start_seen).trans hinv.start_root
  · intro s hs
    rw [h1] at hs
    rcases List.mem_append.1 hs with hs | hs
    · exact (h2 s).2 (Or.inl (hinv.queue_sub s (List.mem_cons_of_mem _ hs)))
    · exact (h2 s).2 (Or.inr hs)
  · intro e he
    rcases h7 e he with hold | ⟨hp, hpse⟩
    · obtain ⟨hstep, he1, he2⟩ := hinv.entries e hold
      exact ⟨hstep, (h2 _).2 (Or.inl he1), (h2 _).2 (Or.inl he2)⟩
    · refine ⟨?_, (h2 _).2 (Or.inr hpse), ?_⟩
      · rw [hp]
        exact ⟨nexts, hok, (h3 e.1 hpse).2⟩
      · rw [hp]
        exact (h2 _).2 (Or.inl hvseen)
  · intro s hs hl
    rcases (h2 s).1 hs with hso | hsp
    · rw [hpre s hso] at hl
      exact hinv.roots s hso hl
    · rw [h6 s hsp] at hl
      cases hl
  · intro s hs
    rcases (h2 s).1 hs with hso | hsp
    · obtain ⟨n, hn, hd⟩ := hinv.dist_ex s hso
      refine ⟨n, ?_, htrans n s hd hso⟩
      rw [h8]
      omega
    · refine ⟨nv + 1, ?_, hpsd s hsp⟩
      have := List.length_pos_of_mem hsp
      rw [h8]
      omega
  · intro s hs hnq
    rcases (h2 s).1 hs with hso | hsp
    · have hsq : s ∉ queue := fun hq' => hnq (by
        rw [h1]
        exact List.mem_append_left _ hq')
      by_cases hsv : s = v
      · rw [hsv]
        exact hnv
      · refine hinv.nvict s hso ?_
        intro hmem
        rcases List.mem_cons.1 hmem with heq | hq'
        · exact hsv heq
        · exact hsq hq'
    · exact absurd (by
        rw [h1]
        exact List.mem_append_right _ hsp : s ∈ Q) hnq
  · rw [h1, List.pairwise_append]
    refine ⟨?_, ?_, ?_⟩
    · refine List.Pairwise.imp_of_mem ?_ (List.pairwise_cons.1 hinv.mono).2
      intro a b ha hb hR na nb hna hnb
      exact hR na nb
        (hback a (hinv.queue_sub a (List.mem_cons_of_mem _ ha)) na hna)
        (hback b (hinv.queue_sub b (List.mem_cons_of_mem _ hb)) nb hnb)
    · refine List.pairwise_of_forall_mem_list ?_
      intro a ha b hb na nb hna hnb
      have h1' := distTo_unique hna (hpsd a ha)
      have h2' := distTo_unique hnb (hpsd b hb)
      omega
    · intro a ha b hb na nb hna hnb
      have hna' := hback a (hinv.queue_sub a (List.mem_cons_of_mem _ ha)) na hna
      have h1' := hsb a (hinv.queue_sub a (List.mem_cons_of_mem _ ha)) na hna'
      have h2' := distTo_unique hnb (hpsd b hb)
      omega
  · intro s hs f hf ns nf hdns hdnf
    rw [h1] at hf
    cases queue with
    | nil =>
      rw [List.nil_append] at hf
      have hfps : f ∈ ps := List.mem_of_mem_head? hf
      have hnf : nf = nv + 1 := distTo_unique hdnf (hpsd f hfps)
      rcases (h2 s).1 hs with hso | hsp
      · have := hsb s hso ns (hback s hso ns hdns)
        omega
      · have := distTo_unique hdns (hpsd s hsp)
        omega
    | cons q0 qrest =>
      rw [List.cons_append] at hf
      injection hf with hf
      rw [← hf] at hdnf
      have hq0 : q0 ∈ q0 :: qrest := List.mem_cons_self _ _
      have hnf0 := hback q0 (hinv.queue_sub q0 (List.mem_cons_of_mem _ hq0)) nf hdnf
      have hvf : nv ≤ nf := hvmin q0 hq0 nf hnf0
      rcases (h2 s).1 hs with hso | hsp
      · have := hsb s hso ns (hback s hso ns hdns)
        omega
      · have := distTo_unique hdns (hpsd s hsp)
        omega
  · intro s t m
    induction m using Nat.strong_induction_on generalizing s t with
    | _ m IH =>
      intro n hs hb hr
      rcases (h2 s).1 hs with hsold | hsps
      · have hob : ∀ ns, DistTo paths s ns → ns ≤ n :=
          fun ns hns => hb ns (htrans ns s hns hsold)
        rcases hinv.cov s t m n hsold hob hr with ⟨ht, htb⟩ | ⟨u, hu, j, hj, hub, hru⟩
        · exact Or.inl ⟨(h2 t).2 (Or.inl ht), fun nt hnt => htb nt (hback t ht nt hnt)⟩
        · rcases List.mem_cons.1 hu with rfl | huq
          · cases hmj : m - j with
            | zero =>
              rw [hmj] at hru
              rcases reachN_zero hru with rfl
              refine Or.inl ⟨(h2 _).2 (Or.inl hvseen), ?_⟩
              intro nt hnt
              have heq : nt = nv := distTo_unique hnt hnvd'
              have hnvb : nv ≤ n + j := hub nv hnvd
              omega
            | succ k =>
              rw [hmj] at hru
              obtain ⟨w, hsw, hwt⟩ := reachN_succ hru
              obtain ⟨l, hok', hwl⟩ := hsw
              rw [hok] at hok'
              injection hok' with hok'
              subst hok'
              have hwseen' : w ∈ S := h4 w hwl
              have hjm : j + 1 ≤ m := by omega
              rcases (h2 w).1 hwseen' with hwold | hwps
              · have hkm : k < m := by omega
                have hwb : ∀ nw, DistTo P w nw → nw ≤ n + (j + 1) := by
                  intro nw hnw
                  have hnw0 := hback w hwold nw hnw
                  have hb1 := hsb w hwold nw hnw0
                  have hb2 := hub nv hnvd
                  omega
                rcases IH k hkm w t (n + (j + 1)) hwseen' hwb hwt with
                  ⟨ht, htb⟩ | ⟨u', hu', j', hj', hub', hru'⟩
                · refine Or.inl ⟨ht, ?_⟩
                  intro nt hnt
                  have := htb nt hnt
                  omega
                · refine Or.inr ⟨u', hu', j + 1 + j', by omega, ?_, ?_⟩
                  · intro nu hnu
                    have := hub' nu hnu
                    omega
                  · have harith : m - (j + 1 + j') = k - j' := by omega
                    rw [harith]
                    exact hru'
              · refine Or.inr ⟨w, by
                  rw [h1]
                  exact List.mem_append_right _ hwps, j + 1, hjm, ?_, ?_⟩
                · intro nw hnw
                  have heq : nw = nv + 1 := distTo_unique hnw (hpsd w hwps)
                  have := hub nv hnvd
                  omega
                · have harith : m - (j + 1) = k := by omega
                  rw [harith]
                  exact hwt
          · refine Or.inr ⟨u, by
              rw [h1]
              exact List.mem_append_left _ huq, j, hj, ?_, hru⟩
            intro nu hnu
            exact hub nu
              (hback u (hinv.queue_sub u (List.mem_cons_of_mem _ huq)) nu hnu)
      · cases m with
        | zero =>
          rcases reachN_zero hr with rfl
          refine Or.inl ⟨hs, ?_⟩
          intro nt hnt
          have := hb nt hnt
          omega
        | succ m' =>
          refine Or.inr ⟨s, by
            rw [h1]
            exact List.mem_append_right _ hsps, 0, Nat.zero_le _, ?_, ?_⟩
          · intro nu hnu
            have := hb nu hnu
            omega
          · rw [Nat.sub_zero]
            exact hr

theorem inv_extract {board : Board} {start v : State} {queue seen : List State}
    {paths : List (State × State)}
    (hinv : SearchInv board start (v :: queue) seen paths)
    (hv : is_victory board v = true) :
    SolutionPath board start (reconstruct_paths paths v paths.length) ∧
      ∀ q, SolutionPath board start q →
        (reconstruct_paths paths v paths.length).length ≤ q.length := by
  have hvseen : v ∈ seen := hinv.queue_sub v (List.mem_cons_self _ _)
  obtain ⟨nv, hnvle, hnvd⟩ := hinv.dist_ex v hvseen
  obtain ⟨hlen, hlast, ⟨r, hhead, hroot⟩, hchain, helems⟩ :=
    reconstruct_spec nv v paths.length hnvd hnvle
  have hmemseen : ∀ x ∈ reconstruct_paths paths v paths.length, x ∈ seen := by
    intro x hx
    rcases helems x hx with rfl | ⟨y, hy⟩
    · exact hvseen
    · have := (hinv.entries _ (lookupPaths_mem hy)).2.2
      simpa using this
  have hrstart : r = start :=
    hinv.roots r (hmemseen r (List.mem_of_mem_head? hhead)) hroot
  have hsol : SolutionPath board start (reconstruct_paths paths v paths.length) := by
    refine ⟨hrstart ▸ hhead, ?_, v, hlast, hv⟩
    refine List.Chain'.imp ?_ hchain
    intro a b hab
    exact (hinv.entries _ (lookupPaths_mem hab)).1
  refine ⟨hsol, ?_⟩
  rintro q ⟨hqhead, hqchain, tq, hqlast, hqvict⟩
  have hq1 : 1 ≤ q.length := by
    cases q with
    | nil => cases hqhead
    | cons a l => simp
  have hreach : ReachN board start (q.length - 1) tq :=
    chain_reach q start tq hqhead hqchain hqlast
  have hstartb : ∀ ns, DistTo paths start ns → ns ≤ 0 := by
    intro ns hns
    have h0 : DistTo paths start 0 := DistTo.root start hinv.start_root
    have := distTo_unique hns h0
    omega
  have hnvbound : nv ≤ q.length - 1 := by
    rcases hinv.cov start tq (q.length - 1) 0 hinv.start_seen hstartb hreach with
      ⟨htq, htb⟩ | ⟨u, hu, j, hj, hub, _⟩
    · have htqq : tq ∈ v :: queue := by
        by_contra hnq
        rw [hinv.nvict tq htq hnq] at hqvict
        cases hqvict
      obtain ⟨ntq, _, hntq⟩ := hinv.dist_ex tq htq
      have hb1 := htb ntq hntq
      rcases List.mem_cons.1 htqq with rfl | htqq'
      · have := distTo_unique hnvd hntq
        omega
      · have := (List.pairwise_cons.1 hinv.mono).1 tq htqq' nv ntq hnvd hntq
        omega
    · obtain ⟨nu, _, hnu⟩ := hinv.dist_ex u (hinv.queue_sub u hu)
      have hb1 := hub nu hnu
      rcases List.mem_cons.1 hu with rfl | huq
      · have := distTo_unique hnvd hnu
        omega
      · have := (List.pairwise_cons.1 hinv.mono).1 u huq nv nu hnvd hnu
        omega
  rw [hlen]
  omega

theorem solveAux_found {board : Board} {start : State} :
    ∀ (fuel : Nat) (queue seen : List State) (paths : List (State × State))
      (p : List State),
      SearchInv board start queue seen paths →
      solveAux board fuel queue seen paths = Except.ok (SearchResult.found p) →
      SolutionPath board start p ∧
        ∀ q, SolutionPath board start q → p.length ≤ q.length := by
  intro fuel
  induction fuel with
  | zero =>
    intro queue seen paths p _ hrun
    rw [solveAux] at hrun
    injection hrun with hrun
    cases hrun
  | succ f ih =>
    intro queue seen paths p hinv hrun
    cases queue with
    | nil =>
      rw [solveAux] at hrun
      injection hrun with hrun
      cases hrun
    | cons v rest =>
      rw [solveAux] at hrun
      by_cases hv : is_victory board v = true
      · rw [if_pos hv] at hrun
        injection hrun with hrun
        injection hrun with hrun
        rw [← hrun]
        exact inv_extract hinv hv
      · rw [if_neg hv] at hrun
        rcases hgns : get_next_states board v with k | nexts
        · rw [hgns] at hrun
          cases hrun
        · rw [hgns] at hrun
          have hnv : is_victory board v = false := by
            rcases hb : is_victory board v
            · rfl
            · exact absurd hb hv
          exact ih _ _ _ p
            (inv_preserve hinv hnv hgns
              (Prod.mk.eta.symm ▸ rfl : pushAll v nexts (rest, seen, paths) =
                ((pushAll v nexts (rest, seen, paths)).1,
                  (pushAll v nexts (rest, seen, paths)).2.1,
                  (pushAll v nexts (rest, seen, paths)).2.2))) hrun

theorem solve_found_spec {board : Board} {start : State} {fuel : Nat}
    {p : List State}
    (h : solve board start fuel = Except.ok (SearchResult.found p)) :
    SolutionPath board start p ∧
      ∀ q, SolutionPath board start q → p.length ≤ q.length :=
  solveAux_found fuel [start] [start] [] p (inv_init board start) h

/-! ## Outcome shapes of solve -/

theorem solveAux_found_nonempty {board : Board} :
    ∀ (fuel : Nat) (queue seen : List State) (paths : List (State × State))
      (p : List State),
      solveAux board fuel queue seen paths = Except.ok (SearchResult.found p) →
      p ≠ [] := by
  intro fuel
  induction fuel with
  | zero =>
    intro queue seen paths p hrun
    rw [solveAux] at hrun
    injection hrun with hrun
    cases hrun
  | succ f ih =>
    intro queue seen paths p hrun
    cases queue with
    | nil =>
      rw [solveAux] at hrun
      injection hrun with hrun
      cases hrun
    | cons v rest =>
      rw [solveAux] at hrun
      by_cases hv : is_victory board v = true
      · rw [if_pos hv] at hrun
        injection hrun with hrun
        injection hrun with hrun
        rw [← hrun]
        exact reconstruct_nonempty paths v paths.length
      · rw [if_neg hv] at hrun
        rcases hgns : get_next_states board v with k | nexts
        · rw [hgns] at hrun
          cases hrun
        · rw [hgns] at hrun
          exact ih _ _ _ p hrun

theorem solve_start_victory {board : Board} {start : State} (fuel : Nat)
    (hv : is_victory board start = true) :
    solve board start (fuel + 1) = Except.ok (SearchResult.found [start]) := by
  rw [solve, solveAux, if_pos hv]
  rfl

/-! ## Error propagation for unknown connection kinds -/

theorem movesFor_error {board : Board} {state : State} {color zone : Nat}
    {ds : List DirectedConnection} {d : DirectedConnection} {k : Nat}
    (hd : d ∈ ds) (he : moveOne board state color zone d = Except.error k) :
    ∃ k', movesFor board state color zone ds = Except.error k' := by
  induction ds with
  | nil => cases hd
  | cons d0 rest ih =>
    rcases hmo : moveOne board state color zone d0 with k0 | o
    · exact ⟨k0, by rw [movesFor, hmo, exbind_error]⟩
    · rcases List.mem_cons.1 hd with rfl | hd'
      · rw [hmo] at he
        cases he
      · obtain ⟨k', hk'⟩ := ih hd'
        exact ⟨k', by rw [movesFor, hmo, exbind_ok, hk', exbind_error]⟩

theorem tokenSuccessors_error {board : Board} {state : State} {color zone : Nat}
    {k : Nat}
    (he : movesFor board state color zone (board.connections zone) =
      Except.error k) :
    tokenSuccessors board state color zone = Except.error k := by
  rw [tokenSuccessors, he, exbind_error]

theorem forTokens_error {board : Board} {state : State} {keys : List (Nat × Nat)}
    {c z k : Nat} (hk : (c, z) ∈ keys)
    (he : tokenSuccessors board state c z = Except.error k) :
    ∃ k', forTokens board state keys = Except.error k' := by
  induction keys with
  | nil => cases hk
  | cons k0 rest ih =>
    rcases k0 with ⟨c0, z0⟩
    rcases hts : tokenSuccessors board state c0 z0 with k1 | here
    · exact ⟨k1, by rw [forTokens, hts, exbind_error]⟩
    · rcases List.mem_cons.1 hk with heq | hk'
      · cases heq
        rw [hts] at he
        cases he
      · obtain ⟨k', hk'⟩ := ih hk'
        exact ⟨k', by rw [forTokens, hts, exbind_ok, hk', exbind_error]⟩

theorem get_next_states_unknown {board : Board} {state : State} {c z : Nat}
    {d : DirectedConnection} (hcz : (c, z) ∈ state.mushrooms)
    (hd : d ∈ board.connections z) (hk1 : d.connection.kind ≠ bridgeType)
    (hk2 : d.connection.kind ≠ blockerType) (hk3 : d.connection.kind ≠ flippyType)
    (hk4 : d.connection.kind ≠ buttonType) :
    ∃ k, get_next_states board state = Except.error k := by
  have hmo : moveOne board state c z d = Except.error d.connection.kind :=
    moveOne_unknown hk1 hk2 hk3 hk4
  obtain ⟨k', hk'⟩ := movesFor_error hd hmo
  exact forTokens_error (mem_sortedKeys.2 hcz) (tokenSuccessors_error hk')

theorem get_connections_mem {conns : List Connection} {c : Connection}
    (hc : c ∈ conns) :
    (⟨c.zone2, c⟩ : DirectedConnection) ∈ (get_connections_by_zone conns).1 c.zone1 ∧
      (⟨c.zone1, c⟩ : DirectedConnection) ∈ (get_connections_by_zone conns).1 c.zone2 := by
  induction conns with
  | nil => cases hc
  | cons c0 rest ih =>
    have hfst : (get_connections_by_zone (c0 :: rest)).1 =
        fun z => connContrib c0 z ++ (get_connections_by_zone rest).1 z := rfl
    rw [hfst]
    rcases List.mem_cons.1 hc with rfl | hc'
    · constructor
      · refine List.mem_append_left _ ?_
        rw [connContrib, if_pos rfl]
        simp
      · refine List.mem_append_left _ ?_
        rw [connContrib]
        by_cases h12 : c.zone1 = c.zone2
        · rw [if_pos h12, if_pos rfl]
          simp
        · rw [if_neg h12, if_pos rfl]
          simp
    · exact ⟨List.mem_append_right _ (ih hc').1, List.mem_append_right _ (ih hc').2⟩

/-! ## Count accounting for split -/

theorem pair_ne_left {a b z w : Nat} (h : a ≠ b) : ((a, z) : Nat × Nat) ≠ (b, w) :=
  fun he => h (congrArg Prod.fst he)

theorem splitResult_count_self {c z : Nat} {s : Multiset (Nat × Nat)}
    (hsec : c ∈ SECONDARY_COLORS) (hm : (c, z) ∈ s) :
    (splitResult s c z).count (c, z) + 1 = s.count (c, z) := by
  have hc1 : 1 ≤ s.count (c, z) := Multiset.one_le_count_iff_mem.2 hm
  have hcc : c = ORANGE ∨ c = GREEN ∨ c = PURPLE := by
    simpa [SECONDARY_COLORS] using hsec
  rcases hcc with rfl | rfl | rfl
  · rw [splitResult, if_neg (by decide : ¬ ORANGE &&& BLUE ≠ 0),
      if_pos (by decide : ORANGE &&& YELLOW ≠ 0),
      if_pos (by decide : ORANGE &&& RED ≠ 0)]
    rw [Multiset.count_cons_of_ne (pair_ne_left (by decide)),
      Multiset.count_cons_of_ne (pair_ne_left (by decide)),
      Multiset.count_erase_self]
    omega
  · rw [splitResult, if_pos (by decide : GREEN &&& BLUE ≠ 0),
      if_pos (by decide : GREEN &&& YELLOW ≠ 0),
      if_neg (by decide : ¬ GREEN &&& RED ≠ 0)]
    rw [Multiset.count_cons_of_ne (pair_ne_left (by decide)),
      Multiset.count_cons_of_ne (pair_ne_left (by decide)),
      Multiset.count_erase_self]
    omega
  · rw [splitResult, if_pos (by decide : PURPLE &&& BLUE ≠ 0),
      if_neg (by decide : ¬ PURPLE &&& YELLOW ≠ 0),
      if_pos (by decide : PURPLE &&& RED ≠ 0)]
    rw [Multiset.count_cons_of_ne (pair_ne_left (by decide)),
      Multiset.count_cons_of_ne (pair_ne_left (by decide)),
      Multiset.count_erase_self]
    omega

theorem splitResult_count_primary {c p z : Nat} {s : Multiset (Nat × Nat)}
    (hsec : c ∈ SECONDARY_COLORS) (hp : p ∈ PRIMARY_COLORS) (hbit : c &&& p ≠ 0) :
    (splitResult s c z).count (p, z) = s.count (p, z) + 1 := by
  have hcc : c = ORANGE ∨ c = GREEN ∨ c = PURPLE := by
    simpa [SECONDARY_COLORS] using hsec
  have hpp : p = RED ∨ p = YELLOW ∨ p = BLUE := by
    simpa [PRIMARY_COLORS] using hp
  rcases hcc with rfl | rfl | rfl
  · rw [splitResult, if_neg (by decide : ¬ ORANGE &&& BLUE ≠ 0),
      if_pos (by decide : ORANGE &&& YELLOW ≠ 0),
      if_pos (by decide : ORANGE &&& RED ≠ 0)]
    rcases hpp with rfl | rfl | rfl
    · rw [Multiset.count_cons_of_ne (pair_ne_left (by decide)),
        Multiset.count_cons_self,
        Multiset.count_erase_of_ne (pair_ne_left (by decide))]
    · rw [Multiset.count_cons_self,
        Multiset.count_cons_of_ne (pair_ne_left (by decide)),
        Multiset.count_erase_of_ne (pair_ne_left (by decide))]
    · exact absurd hbit (by decide)
  · rw [splitResult, if_pos (by decide : GREEN &&& BLUE ≠ 0),
      if_pos (by decide : GREEN &&& YELLOW ≠ 0),
      if_neg (by decide : ¬ GREEN &&& RED ≠ 0)]
    rcases hpp with rfl | rfl | rfl
    · exact absurd hbit (by decide)
    · rw [Multiset.count_cons_of_ne (pair_ne_left (by decide)),
        Multiset.count_cons_self,
        Multiset.count_erase_of_ne (pair_ne_left (by decide))]
    · rw [Multiset.count_cons_self,
        Multiset.count_cons_of_ne (pair_ne_left (by decide)),
        Multiset.count_erase_of_ne (pair_ne_left (by decide))]
  · rw [splitResult, if_pos (by decide : PURPLE &&& BLUE ≠ 0),
      if_neg (by decide : ¬ PURPLE &&& YELLOW ≠ 0),
      if_pos (by decide : PURPLE &&& RED ≠ 0)]
    rcases hpp with rfl | rfl | rfl
    · rw [Multiset.count_cons_of_ne (pair_ne_left (by decide)),
        Multiset.count_cons_self,
        Multiset.count_erase_of_ne (pair_ne_left (by decide))]
    · exact absurd hbit (by decide)
    · rw [Multiset.count_cons_self,
        Multiset.count_cons_of_ne (pair_ne_left (by decide)),
        Multiset.count_erase_of_ne (pair_ne_left (by decide))]

/-! # Claim theorems -/

/-! ## C1: victory semantics -/

def c1Board : Board := mkBoard [⟨0, [], 0, []⟩, ⟨1, [], 1, []⟩] []

def c1State : State := ⟨{(RED, 1), (RED, 0)}, 0⟩

/-- C1, counterexample: on a board whose only goal-bearing zone (index 1,
goal 1) holds exactly its goal total, the victory check still rejects the
state because the goal-free zone 0 holds a token.  This refutes the claim
that zones with goal 0 place no constraint and that their contents cannot
affect the result. -/
theorem c1_counterexample :
    (zoneAt c1Board 1).goals = 1 ∧ zonePop c1State.mushrooms 1 = 1 ∧
      (zoneAt c1Board 0).goals = 0 ∧ is_victory c1Board c1State = false := by
  refine ⟨by decide, by decide, by decide, by decide⟩

/-- C1, amended: the victory check accepts a state iff every zone of the
board holds exactly its goal count (so zones with goal 0 must be empty) and
no token sits outside the board's zone list; goal totals are color-blind,
summing tokens over all colors. -/
theorem c1_amended (board : Board) (state : State) :
    is_victory board state = true ↔
      ((∀ i < board.zones.length, (zoneAt board i).goals = zonePop state.mushrooms i) ∧
        ∀ m ∈ state.mushrooms, m.2 < board.zones.length) :=
  is_victory_iff

def c1WBoard : Board := mkBoard [⟨0, [], 1, []⟩] []

def c1WState : State := ⟨{(RED, 0)}, 0⟩

/-- C1, witness: the amended characterization evaluated on a concrete
satisfied board. -/
theorem c1_witness : is_victory c1WBoard c1WState = true :=
  (c1_amended c1WBoard c1WState).2 ⟨by decide, by decide⟩

/-! ## C2: the button rule -/

def c2Conn : Connection := ⟨buttonType, 0, 1, 0, 0⟩

def c2Board : Board :=
  mkBoard [⟨0, [], 0, []⟩, ⟨1, [], 0, []⟩, ⟨2, [], 0, [1]⟩] [c2Conn]

def c2State : State := ⟨{(RED, 0)}, 0⟩

/-- C2, counterexample: a Button edge whose button group is {zone 2: weight
1}.  Zone 2 holds zero tokens, so by the claim the net weighted population
is zero and the move should be generated — but the code blocks it (the
button must be *held*): the successor list is empty and the movement
attempt yields `none`. -/
theorem c2_counterexample :
    zonePop c2State.mushrooms 2 = 0 ∧
      get_next_states c2Board c2State = Except.ok [] ∧
      moveOne c2Board c2State RED 0 ⟨1, c2Conn⟩ = Except.ok none := by
  refine ⟨by decide, rfl, rfl⟩

/-- C2, amended: a move over a Button edge is generated iff every zone of
the board holds at least its button weight in tokens, excluding the moving
token's own contribution to its source zone (buttons must be pressed, not
vacated); consequently adding a token never blocks a Button move, and a
generated button move does appear among the successors. -/
theorem c2_amended (board : Board) (state : State) (color zone : Nat)
    (d : DirectedConnection) (hk : d.connection.kind = buttonType) :
    (moveOne board state color zone d =
      Except.ok
        (if buttonConnected board state.mushrooms color zone d.connection.button_set
          then some (moveState state color zone d.to_zone state.bridges)
          else none)) ∧
    (buttonConnected board state.mushrooms color zone d.connection.button_set = true ↔
      ∀ i < board.zones.length,
        buttonWeight (zoneAt board i) d.connection.button_set ≤
          popExcl state.mushrooms color zone i) ∧
    (∀ x, buttonConnected board state.mushrooms color zone
        d.connection.button_set = true →
      buttonConnected board (x ::ₘ state.mushrooms) color zone
        d.connection.button_set = true) ∧
    (∀ l t, get_next_states board state = Except.ok l →
      (color, zone) ∈ state.mushrooms → d ∈ board.connections zone →
      moveOne board state color zone d = Except.ok (some t) → t ∈ l) := by
  refine ⟨moveOne_button hk, buttonConnected_iff, ?_, ?_⟩
  · intro x h
    exact buttonConnected_mono x h
  · intro l t hok hcz hd hmo
    exact (mem_next_states_iff hok).2
      ⟨color, zone, hcz, Or.inr (Or.inr (Or.inr (Or.inr ⟨d, hd, hmo⟩)))⟩

def c2WState : State := ⟨{(RED, 0), (YELLOW, 2)}, 0⟩

/-- C2, witness: with a token pressing button zone 2 the same edge is
passable. -/
theorem c2_witness :
    buttonConnected c2Board c2WState.mushrooms RED 0 0 = true ∧
      moveOne c2Board c2WState RED 0 ⟨1, c2Conn⟩ =
        Except.ok
          (if buttonConnected c2Board c2WState.mushrooms RED 0 0
            then some (moveState c2WState RED 0 1 c2WState.bridges)
            else none) :=
  ⟨by decide, (c2_amended c2Board c2WState RED 0 ⟨1, c2Conn⟩ rfl).1⟩

/-! ## C3: breadth-first search returns a shortest solution path -/

/-- C3: whenever `solve` returns a path, that path starts at the start
state, consists of consecutive successor transitions, ends in a state
accepted by the victory check, and no strictly shorter such path exists. -/
theorem c3_solve_shortest (board : Board) (start : State) (fuel : Nat)
    (p : List State)
    (h : solve board start fuel = Except.ok (SearchResult.found p)) :
    SolutionPath board start p ∧
      ∀ q, SolutionPath board start q → p.length ≤ q.length :=
  solve_found_spec h

def c3Conn : Connection := ⟨bridgeType, 0, 1, WHITE, 0⟩

def c3Board : Board := mkBoard [⟨0, [], 0, []⟩, ⟨1, [], 1, []⟩] [c3Conn]

def c3Start : State := ⟨{(RED, 0)}, (get_connections_by_zone [c3Conn]).2⟩

def c3Goal : State := ⟨{(RED, 1)}, 0⟩

/-- C3, witness: on a two-zone board the search finds the two-state path and
no solution path has fewer than two states. -/
theorem c3_witness :
    SolutionPath c3Board c3Start [c3Start, c3Goal] ∧
      ∀ q, SolutionPath c3Board c3Start q → ([c3Start, c3Goal] : List State).length ≤ q.length :=
  c3_solve_shortest c3Board c3Start 3 [c3Start, c3Goal] rfl

/-! ## C4: conservation of elemental color units -/

def c4Conn : Connection := ⟨bridgeType, 0, 1, RED, 0⟩

def c4Board : Board := mkBoard [⟨0, [RED], 0, []⟩, ⟨1, [], 0, []⟩] [c4Conn]

def c4State : State := ⟨{(WHITE, 0)}, 0⟩

def c4Next : State := ⟨{(RED, 0)}, 0⟩

/-- C4, counterexample: zone 0 (colorizer RED) is joined to zone 1 by a
bridge requiring RED, so the WHITE token's zone has an outgoing connection
but the bridge rejects the colorless token; the single successor is the
colorize transition, which turns a colorless token (zero occupied primary
bits) into a RED token (one occupied bit).  The total elemental color-unit
count grows from 0 to 1, so it is not conserved by every transition
kind. -/
theorem c4_counterexample :
    get_next_states c4Board c4State = Except.ok [c4Next] ∧
      totalUnits c4State.mushrooms = 0 ∧ totalUnits c4Next.mushrooms = 1 := by
  refine ⟨rfl, by decide, by decide⟩

/-- C4, amended: move, split and join transitions conserve the total
elemental color-unit count; a colorize transition increases it by the unit
count of the acquired colorizer color and a decolorize transition decreases
it by the unit count of the dropped color; all token counts remain
non-negative. -/
theorem c4_amended (board : Board) (state : State) (c z : Nat)
    (hcz : (c, z) ∈ state.mushrooms) :
    (∀ t ∈ splitPart state c z,
      totalUnits t.mushrooms = totalUnits state.mushrooms) ∧
    (∀ t ∈ joinPart state c z,
      totalUnits t.mushrooms = totalUnits state.mushrooms) ∧
    (∀ d t, moveOne board state c z d = Except.ok (some t) →
      totalUnits t.mushrooms = totalUnits state.mushrooms) ∧
    (∀ t ∈ colorizePart board state c z, ∃ nc ∈ (zoneAt board z).colorizers,
      totalUnits t.mushrooms = totalUnits state.mushrooms + unitsOf nc) ∧
    (∀ t ∈ decolorizePart board state c z,
      totalUnits t.mushrooms + unitsOf c = totalUnits state.mushrooms) ∧
    (∀ l, get_next_states board state = Except.ok l →
      ∀ t ∈ l, ∀ k, 0 ≤ t.mushrooms.count k) := by
  refine ⟨?_, ?_, ?_, ?_, ?_, ?_⟩
  · intro t ht
    obtain ⟨hsec, rfl⟩ := splitPart_mem.1 ht
    exact totalUnits_splitResult_secondary hsec hcz
  · intro t ht
    obtain ⟨hc, oc, hoc, hne, hocz, rfl⟩ := joinPart_mem.1 ht
    exact totalUnits_join hc hoc hne hcz hocz
  · intro d t hmo
    rcases moveOne_ok_some hmo with ⟨_, _, rfl⟩ | ⟨_, _, rfl⟩ | ⟨_, _, _, rfl⟩ | ⟨_, _, rfl⟩ <;>
      exact totalUnits_move hcz
  · intro t ht
    obtain ⟨hcw, nc, hnc, rfl⟩ := colorizePart_mem.1 ht
    subst hcw
    exact ⟨nc, hnc, totalUnits_colorize hcz⟩
  · intro t ht
    obtain ⟨hcol, rfl⟩ := decolorizePart_mem.1 ht
    exact totalUnits_decolorize hcz
  · intro l _ t _ k
    exact Nat.zero_le _

/-- C4, witness: the colorize clause of the amended statement applied to
the concrete colorize successor of the WHITE token — its unit count exceeds
the parent state's by the unit count of a registered colorizer color. -/
theorem c4_witness :
    (WHITE, 0) ∈ c4State.mushrooms ∧
      c4Next ∈ colorizePart c4Board c4State WHITE 0 ∧
      ∃ nc ∈ (zoneAt c4Board 0).colorizers,
        totalUnits c4Next.mushrooms = totalUnits c4State.mushrooms + unitsOf nc :=
  ⟨by decide, by decide,
    (c4_amended c4Board c4State WHITE 0 (by decide)).2.2.2.1 c4Next (by decide)⟩

/-! ## C5: flippy toggle orientation -/

def c5Conns : List Connection := [⟨flippyType, 0, 1, 0, 0⟩, ⟨flippyType, 0, 1, 0, 0⟩]

def c5Board : Board := mkBoard [⟨0, [], 0, []⟩, ⟨1, [], 0, []⟩] c5Conns

def c5Start : State := initState c5Conns {(WHITE, 0), (WHITE, 0)}

def c5Mid : State := ⟨{(0, 1), (0, 0)}, {(1, 0), (0, 1)}⟩

/-- C5, counterexample: with two parallel flippy connections between zones 0
and 1 (a configuration the program's own test boards use), the state
reached after one crossing carries toggle count 1 in *both* directions, so
the toggle does not favor exactly one endpoint, and an immediate
same-direction crossing by the second identical token is generated rather
than blocked. -/
theorem c5_counterexample :
    get_next_states c5Board c5Start = Except.ok [c5Mid, c5Mid] ∧
      c5Mid.bridges.count (0, 1) = 1 ∧ c5Mid.bridges.count (1, 0) = 1 ∧
      moveOne c5Board c5Mid WHITE 0 ⟨1, ⟨flippyType, 0, 1, 0, 0⟩⟩ =
        Except.ok (some (moveState c5Mid WHITE 0 1
          ((1, 0) ::ₘ c5Mid.bridges.erase (0, 1)))) := by
  refine ⟨rfl, by decide, by decide, rfl⟩

/-- C5, amended: when the connection list contains exactly one flippy
connection between zones X and Y (in either orientation), every state
reachable from the constructed initial state keeps the two directed toggle
counters summing to one (the toggle favors exactly one endpoint); a
crossing from X to Y is generated iff the token is flippy-eligible and the
X→Y counter is one, and after such a crossing the X→Y counter is zero, so
any immediate same-direction crossing yields no move until a Y→X crossing
flips the toggle back. -/
theorem c5_amended (zones : List Zone) (conns : List Connection)
    (ms : Multiset (Nat × Nat)) (X Y : Nat) (hXY : X ≠ Y)
    (hone : conns.countP (flippyBetween X Y) = 1) (s : State)
    (hreach : Relation.ReflTransGen (Step (mkBoard zones conns))
      (initState conns ms) s) :
    s.bridges.count (X, Y) + s.bridges.count (Y, X) = 1 ∧
    (∀ c d, d.connection.kind = flippyType → d.to_zone = Y →
      (moveOne (mkBoard zones conns) s c X d =
          Except.ok (some (moveState s c X Y ((Y, X) ::ₘ s.bridges.erase (X, Y)))) ↔
        (c ∉ SECONDARY_COLORS ∧ s.bridges.count (X, Y) = 1))) ∧
    (∀ c d t, d.connection.kind = flippyType → d.to_zone = Y →
      moveOne (mkBoard zones conns) s c X d = Except.ok (some t) →
      t.bridges.count (X, Y) = 0 ∧
        ∀ c' d', d'.connection.kind = flippyType → d'.to_zone = Y →
          moveOne (mkBoard zones conns) t c' X d' = Except.ok none) := by
  have hsum : s.bridges.count (X, Y) + s.bridges.count (Y, X) = 1 := by
    have h0 := reach_flippy_sum hreach hXY
    have hinit := bridges_init_count hXY conns
    rw [hone] at hinit
    rw [h0]
    exact hinit
  refine ⟨hsum, ?_, ?_⟩
  · intro c d hk hdY
    rw [moveOne_flippy hk, hdY]
    by_cases hcond : c ∉ SECONDARY_COLORS ∧ s.bridges.count (X, Y) ≠ 0
    · rw [if_pos hcond]
      simp only [Except.ok.injEq, Option.some.injEq]
      constructor
      · intro _
        exact ⟨hcond.1, by omega⟩
      · intro _
        trivial
    · rw [if_neg hcond]
      constructor
      · intro h
        injection h with h
        cases h
      · intro ⟨h1, h2⟩
        exact absurd ⟨h1, by omega⟩ hcond
  · intro c d t hk hdY hmo
    rw [moveOne_flippy hk, hdY] at hmo
    split_ifs at hmo with hcond
    · injection hmo with hmo
      injection hmo with hmo
      have hne1 : ((X, Y) : Nat × Nat) ≠ (Y, X) := fun h => hXY (congrArg Prod.fst h)
      have htb : t.bridges = (Y, X) ::ₘ s.bridges.erase (X, Y) := by
        rw [← hmo]
        rfl
      have hzero : t.bridges.count (X, Y) = 0 := by
        rw [htb, Multiset.count_cons_of_ne hne1, Multiset.count_erase_self]
        omega
      refine ⟨hzero, ?_⟩
      intro c' d' hk' hdY'
      rw [moveOne_flippy hk', hdY']
      rw [if_neg ?_]
      intro ⟨_, hcnt⟩
      exact hcnt hzero
    · injection hmo with hmo
      cases hmo

def c5WConns : List Connection := [⟨flippyType, 0, 1, 0, 0⟩]

/-- C5, witness: the amended invariant evaluated on a one-flippy board at
its initial state. -/
theorem c5_witness :
    (0 : Nat) ≠ 1 ∧ c5WConns.countP (flippyBetween 0 1) = 1 ∧
      (initState c5WConns {(WHITE, 0)}).bridges.count (0, 1) +
        (initState c5WConns {(WHITE, 0)}).bridges.count (1, 0) = 1 :=
  ⟨by decide, by decide,
    (c5_amended [⟨0, [], 0, []⟩, ⟨1, [], 0, []⟩] c5WConns {(WHITE, 0)} 0 1
      (by decide) (by decide) _ Relation.ReflTransGen.refl).1⟩

/-! ## C6: unrecognized connection kinds -/

def c6Conn : Connection := ⟨7, 0, 1, 0, 0⟩

def c6Board : Board := mkBoard [⟨0, [], 0, []⟩, ⟨1, [], 0, []⟩] [c6Conn]

def c6State : State := ⟨{(RED, 0)}, 0⟩

/-- C6, counterexample: board construction does *not* fail on a connection
of unrecognized kind 7 — it produces the complete adjacency containing both
directed edges of that connection; the fatal error
(`NotImplementedError`) is raised only later, during successor
generation. -/
theorem c6_counterexample :
    (get_connections_by_zone [c6Conn]).1 0 = [⟨1, c6Conn⟩] ∧
      (get_connections_by_zone [c6Conn]).1 1 = [⟨0, c6Conn⟩] ∧
      get_next_states c6Board c6State = Except.error 7 := by
  refine ⟨rfl, rfl, rfl⟩

/-- C6, amended: board construction is kind-agnostic — every connection,
recognized or not, contributes its two directed edges to the adjacency —
while an unrecognized kind is a fatal error during successor generation: a
movement attempt over it raises (`Except.error`), and when a token can
reach such an edge the whole successor computation fails rather than
silently skipping it. -/
theorem c6_amended :
    (∀ (conns : List Connection) (c : Connection), c ∈ conns →
      (⟨c.zone2, c⟩ : DirectedConnection) ∈
          (get_connections_by_zone conns).1 c.zone1 ∧
        (⟨c.zone1, c⟩ : DirectedConnection) ∈
          (get_connections_by_zone conns).1 c.zone2) ∧
    (∀ (board : Board) (state : State) (color zone : Nat)
        (d : DirectedConnection),
      d.connection.kind ≠ bridgeType → d.connection.kind ≠ blockerType →
      d.connection.kind ≠ flippyType → d.connection.kind ≠ buttonType →
      moveOne board state color zone d = Except.error d.connection.kind) ∧
    (∀ (board : Board) (state : State) (c z : Nat) (d : DirectedConnection),
      (c, z) ∈ state.mushrooms → d ∈ board.connections z →
      d.connection.kind ≠ bridgeType → d.connection.kind ≠ blockerType →
      d.connection.kind ≠ flippyType → d.connection.kind ≠ buttonType →
      ∃ k, get_next_states board state = Except.error k) :=
  ⟨fun _ _ hc => get_connections_mem hc,
   fun _ _ _ _ _ h1 h2 h3 h4 => moveOne_unknown h1 h2 h3 h4,
   fun _ _ _ _ _ hcz hd h1 h2 h3 h4 => get_next_states_unknown hcz hd h1 h2 h3 h4⟩

/-- C6, witness: the amended statement applied to the concrete kind-7
connection. -/
theorem c6_witness :
    moveOne c6Board c6State RED 0 ⟨1, c6Conn⟩ = Except.error c6Conn.kind :=
  c6_amended.2.1 c6Board c6State RED 0 ⟨1, c6Conn⟩
    (by decide) (by decide) (by decide) (by decide)

/-! ## C7: outcome shape of solve -/

/-- C7: a found path is distinguished from the no-solution outcome at the
type level (`SearchResult.found` versus `SearchResult.noSolution`), a found
path is never empty, and a start state that already satisfies the victory
check yields the one-element path `[start]`, not a no-solution outcome. -/
theorem c7_solve_outcomes :
    (∀ (board : Board) (start : State) (fuel : Nat) (p : List State),
      solve board start fuel = Except.ok (SearchResult.found p) → p ≠ []) ∧
    (∀ (board : Board) (start : State) (fuel : Nat),
      is_victory board start = true →
      solve board start (fuel + 1) = Except.ok (SearchResult.found [start])) :=
  ⟨fun _ _ fuel p h => solveAux_found_nonempty fuel _ _ _ p h,
   fun _ _ fuel hv => solve_start_victory fuel hv⟩

def c7Board : Board := mkBoard [] []

def c7State : State := ⟨0, 0⟩

/-- C7, witness: on the empty board the (vacuously victorious) start state
is returned as a one-element path. -/
theorem c7_witness :
    is_victory c7Board c7State = true ∧
      solve c7Board c7State 1 = Except.ok (SearchResult.found [c7State]) :=
  ⟨by decide, c7_solve_outcomes.2 c7Board c7State 0 (by decide)⟩

/-! ## C8: the split rule and the triple color -/

def c8Conn : Connection := ⟨blockerType, 0, 1, RED, 0⟩

def c8Board : Board := mkBoard [⟨0, [], 0, []⟩, ⟨1, [], 0, []⟩] [c8Conn]

def c8State : State := ⟨{(BLACK, 0)}, 0⟩

/-- C8, counterexample: BLACK is defined (`7`, all three bits) and present
in this state, yet it is not a member of `SECONDARY_COLORS`, so the split
rule does not apply to it: the token yields no split candidate, and since
its zone's only outgoing connection is a blocker on RED (which shares a bit
with BLACK), no successor at all — refuting the claim that the split rule
also applies to the triple color in this implementation. -/
theorem c8_counterexample :
    (BLACK, 0) ∈ c8State.mushrooms ∧ BLACK ∉ SECONDARY_COLORS ∧
      splitPart c8State BLACK 0 = [] ∧
      (get_connections_by_zone [c8Conn]).1 0 = [⟨1, c8Conn⟩] ∧
      get_next_states c8Board c8State = Except.ok [] := by
  refine ⟨by decide, by decide, rfl, rfl, rfl⟩

/-- C8, amended: the split rule applies exactly to the secondary colors
(two occupied bits): it removes one token of that color and adds one token
of each contained primary bit in the same zone, yielding exactly one
candidate successor; it never applies to any other color — in particular
the triple color BLACK, though defined and occurring on boards, never
splits. -/
theorem c8_amended (state : State) (c z : Nat) (hcz : (c, z) ∈ state.mushrooms) :
    (c ∈ SECONDARY_COLORS →
      splitPart state c z = [⟨splitResult state.mushrooms c z, state.bridges⟩] ∧
      (splitResult state.mushrooms c z).count (c, z) + 1 =
        state.mushrooms.count (c, z) ∧
      (∀ p ∈ PRIMARY_COLORS, c &&& p ≠ 0 →
        (splitResult state.mushrooms c z).count (p, z) =
          state.mushrooms.count (p, z) + 1)) ∧
    (c ∉ SECONDARY_COLORS → splitPart state c z = []) ∧
    splitPart state BLACK z = [] := by
  refine ⟨?_, ?_, ?_⟩
  · intro hsec
    refine ⟨by rw [splitPart, if_pos hsec], splitResult_count_self hsec hcz, ?_⟩
    intro p hp hbit
    exact splitResult_count_primary hsec hp hbit
  · intro hsec
    rw [splitPart, if_neg hsec]
  · rw [splitPart, if_neg (by decide : BLACK ∉ SECONDARY_COLORS)]

def c8WState : State := ⟨{(ORANGE, 0)}, 0⟩

/-- C8, witness: an ORANGE token splits into exactly one candidate with one
more RED and one more YELLOW token. -/
theorem c8_witness :
    (ORANGE, 0) ∈ c8WState.mushrooms ∧
      splitPart c8WState ORANGE 0 =
        [⟨splitResult c8WState.mushrooms ORANGE 0, c8WState.bridges⟩] :=
  ⟨by decide, ((c8_amended c8WState ORANGE 0 (by decide)).1 (by decide)).1⟩

/-! ## C9: frame effect of a move -/

def c9Conn : Connection := ⟨bridgeType, 0, 0, 0, 0⟩

def c9Board : Board := mkBoard [⟨0, [], 0, []⟩] [c9Conn]

def c9State : State := ⟨{(RED, 0)}, 0⟩

/-- C9, counterexample: a self-loop bridge (both endpoints zone 0, required
color colorless) is passable and produces a move whose successor equals the
parent state: the destination zone's count stays 1 instead of increasing by
one, refuting the claim for moves whose destination equals their source. -/
theorem c9_counterexample :
    moveOne c9Board c9State RED 0 ⟨0, c9Conn⟩ = Except.ok (some c9State) ∧
      c9State.mushrooms.count (RED, 0) = 1 := by
  refine ⟨rfl, by decide⟩

/-- C9, amended: for a move of a present token across a passable edge, if
the destination differs from the source then the destination zone's count
for that color increases by exactly one, the source zone's count decreases
by exactly one and every other (color, zone) count is unchanged; a
self-loop move leaves the token counts identical. -/
theorem c9_amended (board : Board) (state : State) (c z : Nat)
    (d : DirectedConnection) (t : State) (hcz : (c, z) ∈ state.mushrooms)
    (hmo : moveOne board state c z d = Except.ok (some t)) :
    (d.to_zone = z → t.mushrooms = state.mushrooms) ∧
    (d.to_zone ≠ z →
      t.mushrooms.count (c, d.to_zone) =
        state.mushrooms.count (c, d.to_zone) + 1 ∧
      t.mushrooms.count (c, z) + 1 = state.mushrooms.count (c, z) ∧
      ∀ k, k ≠ (c, z) → k ≠ (c, d.to_zone) →
        t.mushrooms.count k = state.mushrooms.count k) := by
  have hshape : t.mushrooms = (c, d.to_zone) ::ₘ state.mushrooms.erase (c, z) := by
    rcases moveOne_ok_some hmo with ⟨_, _, rfl⟩ | ⟨_, _, rfl⟩ | ⟨_, _, _, rfl⟩ | ⟨_, _, rfl⟩ <;>
      rfl
  have hcount : 1 ≤ state.mushrooms.count (c, z) :=
    Multiset.one_le_count_iff_mem.2 hcz
  constructor
  · intro hz
    rw [hshape, hz, Multiset.cons_erase hcz]
  · intro hz
    have hpne : ((c, d.to_zone) : Nat × Nat) ≠ (c, z) :=
      fun h => hz (congrArg Prod.snd h)
    refine ⟨?_, ?_, ?_⟩
    · rw [hshape, Multiset.count_cons_self,
        Multiset.count_erase_of_ne hpne]
    · rw [hshape, Multiset.count_cons_of_ne (fun h => hz (congrArg Prod.snd h).symm),
        Multiset.count_erase_self]
      omega
    · intro k hk1 hk2
      rw [hshape, Multiset.count_cons_of_ne hk2,
        Multiset.count_erase_of_ne hk1]

def c9WConn : Connection := ⟨bridgeType, 0, 1, 0, 0⟩

def c9WBoard : Board := mkBoard [⟨0, [], 0, []⟩, ⟨1, [], 0, []⟩] [c9WConn]

def c9WState : State := ⟨{(RED, 0)}, 0⟩

def c9WNext : State := ⟨{(RED, 1)}, 0⟩

/-- C9, witness: on a genuine two-zone move the destination count rises from
0 to 1 and the source count falls from 1 to 0. -/
theorem c9_witness :
    c9WNext.mushrooms.count (RED, 1) = c9WState.mushrooms.count (RED, 1) + 1 ∧
      c9WNext.mushrooms.count (RED, 0) + 1 = c9WState.mushrooms.count (RED, 0) :=
  ⟨((c9_amended c9WBoard c9WState RED 0 ⟨1, c9WConn⟩ c9WNext (by decide) rfl).2
      (by decide)).1,
   ((c9_amended c9WBoard c9WState RED 0 ⟨1, c9WConn⟩ c9WNext (by decide) rfl).2
      (by decide)).2.1⟩

/-! ## C10: flippy eligibility -/

/-- C10: over a flippy edge a token may cross iff its color is not
secondary and the toggle currently permits the direction; every
secondary-colored token is rejected outright, while WHITE, the three
primaries and BLACK are all flippy-eligible. -/
theorem c10_flippy_eligibility (board : Board) (state : State) (c z : Nat)
    (d : DirectedConnection) (hk : d.connection.kind = flippyType) :
    (moveOne board state c z d =
        Except.ok (some (moveState state c z d.to_zone
          ((d.to_zone, z) ::ₘ state.bridges.erase (z, d.to_zone)))) ↔
      (c ∉ SECONDARY_COLORS ∧ state.bridges.count (z, d.to_zone) ≠ 0)) ∧
    (c ∈ SECONDARY_COLORS → moveOne board state c z d = Except.ok none) ∧
    (WHITE ∉ SECONDARY_COLORS ∧ RED ∉ SECONDARY_COLORS ∧
      YELLOW ∉ SECONDARY_COLORS ∧ BLUE ∉ SECONDARY_COLORS ∧
      BLACK ∉ SECONDARY_COLORS) := by
  refine ⟨?_, ?_, by decide⟩
  · rw [moveOne_flippy hk]
    by_cases hcond : c ∉ SECONDARY_COLORS ∧ state.bridges.count (z, d.to_zone) ≠ 0
    · rw [if_pos hcond]
      simp only [Except.ok.injEq, Option.some.injEq]
      exact ⟨fun _ => hcond, fun _ => trivial⟩
    · rw [if_neg hcond]
      constructor
      · intro h
        injection h with h
        cases h
      · intro h
        exact absurd h hcond
  · intro hsec
    rw [moveOne_flippy hk, if_neg (fun hand => hand.1 hsec)]

def c10Conn : Connection := ⟨flippyType, 0, 1, 0, 0⟩

def c10Board : Board := mkBoard [⟨0, [], 0, []⟩, ⟨1, [], 0, []⟩] [c10Conn]

def c10State : State := initState [c10Conn] {(BLACK, 0)}

/-- C10, witness: on a concrete flippy board a BLACK token is eligible (it
is not secondary and the toggle permits), so the crossing is generated. -/
theorem c10_witness :
    (BLACK ∉ SECONDARY_COLORS ∧ c10State.bridges.count (0, 1) ≠ 0) ∧
      moveOne c10Board c10State BLACK 0 ⟨1, c10Conn⟩ =
        Except.ok (some (moveState c10State BLACK 0 1
          ((1, 0) ::ₘ c10State.bridges.erase (0, 1)))) :=
  ⟨by decide,
    (c10_flippy_eligibility c10Board c10State BLACK 0 ⟨1, c10Conn⟩ rfl).1.2
      (by decide)⟩
